import Mathlib

/-!
Verification development for the telegram-gemini-bot repository.

Go strings are modelled as `List Char` (or `List ℕ` when the code works on
raw bytes), Go slices as Lean lists, Go maps used as sets as membership
lists, and `nil`-able values as `Option`.  Network and platform effects are
modelled by explicit oracle parameters; the traces of outbound platform
calls are accumulated in explicit lists.
-/

set_option maxHeartbeats 1000000
set_option maxRecDepth 4000

namespace TGBot

/-! ### Go `strings` primitives

`firstMatch s pat` mirrors the search for the leftmost occurrence of `pat`
in `s` performed by `strings.Index` / `strings.Replace`: it returns the
split `(before, after)` around the leftmost occurrence, if any. -/

variable {α : Type} [DecidableEq α]

def firstMatch : List α → List α → Option (List α × List α)
  | s, pat =>
    if pat.isPrefixOf s then
      some ([], s.drop pat.length)
    else
      match s with
      | [] => none
      | c :: cs =>
        match firstMatch cs pat with
        | none => none
        | some (a, b) => some (c :: a, b)

theorem firstMatch_cons_of_not_prefix {c : α} {cs pat : List α}
    (hp : ¬ pat.isPrefixOf (c :: cs)) :
    firstMatch (c :: cs) pat =
      match firstMatch cs pat with
      | none => none
      | some (a, b) => some (c :: a, b) := by
  rw [firstMatch]
  simp [hp]

theorem firstMatch_eq_append {s pat a b : List α}
    (h : firstMatch s pat = some (a, b)) : s = a ++ pat ++ b := by
  induction s generalizing a b with
  | nil =>
    rw [firstMatch] at h
    split at h
    · next hp =>
      have hnil : pat = [] := List.prefix_nil.mp (List.isPrefixOf_iff_prefix.mp hp)
      obtain ⟨h1, h2⟩ := Prod.mk.injEq .. ▸ Option.some.inj h
      subst hnil
      simp [← h1, ← h2]
    · exact absurd h (by simp)
  | cons c cs ih =>
    rw [firstMatch] at h
    split at h
    · next hp =>
      obtain ⟨h1, h2⟩ := Prod.mk.injEq .. ▸ Option.some.inj h
      obtain ⟨t, ht⟩ := List.isPrefixOf_iff_prefix.mp hp
      subst h1
      rw [← h2, ← ht]
      simp [List.drop_left']
    · split at h
      · exact absurd h (by simp)
      · next a' b' hfm =>
        obtain ⟨h1, h2⟩ := Prod.mk.injEq .. ▸ Option.some.inj h
        have := ih hfm
        subst h2
        rw [← h1, this]
        simp

theorem firstMatch_none {s pat : List α}
    (h : firstMatch s pat = none) : ¬ pat <:+: s := by
  induction s with
  | nil =>
    rw [firstMatch] at h
    split at h
    · exact absurd h (by simp)
    · next hp =>
      intro hinf
      have : pat = [] := List.eq_nil_of_infix_nil hinf
      subst this
      exact hp (List.isPrefixOf_iff_prefix.mpr (List.nil_prefix))
  | cons c cs ih =>
    rw [firstMatch] at h
    split at h
    · exact absurd h (by simp)
    · next hp =>
      intro hinf
      rcases List.infix_cons_iff.mp hinf with hpre | htail
      · exact hp (List.isPrefixOf_iff_prefix.mpr hpre)
      · split at h
        · next hfm => exact ih hfm htail
        · exact absurd h (by simp)

theorem firstMatch_before_no_occurrence {s pat a b : List α}
    (hpat : pat ≠ []) (h : firstMatch s pat = some (a, b)) : ¬ pat <:+: a := by
  induction s generalizing a b with
  | nil =>
    rw [firstMatch] at h
    split at h
    · next hp =>
      exact absurd (List.prefix_nil.mp (List.isPrefixOf_iff_prefix.mp hp)) hpat
    · exact absurd h (by simp)
  | cons c cs ih =>
    rw [firstMatch] at h
    split at h
    · next hp =>
      obtain ⟨h1, _⟩ := Prod.mk.injEq .. ▸ Option.some.inj h
      rw [← h1]
      intro hinf
      exact hpat (List.eq_nil_of_infix_nil hinf)
    · next hp =>
      split at h
      · exact absurd h (by simp)
      · next a' b' hfm =>
        obtain ⟨h1, h2⟩ := Prod.mk.injEq .. ▸ Option.some.inj h
        rw [← h1]
        intro hinf
        rcases List.infix_cons_iff.mp hinf with hpre | htail
        · have hs : (c :: a') <+: (c :: cs) := by
            have := firstMatch_eq_append hfm
            subst this
            exact ⟨pat ++ b', by simp⟩
          exact hp (List.isPrefixOf_iff_prefix.mpr (hpre.trans hs))
        · exact ih hfm htail

theorem firstMatch_after_length {s pat a b : List α}
    (hpat : pat ≠ []) (h : firstMatch s pat = some (a, b)) :
    b.length < s.length := by
  have := firstMatch_eq_append h
  subst this
  have : 0 < pat.length := List.length_pos.mpr hpat
  simp
  omega

/-- Go `strings.Contains`. -/
def goContains (s pat : List α) : Bool :=
  (firstMatch s pat).isSome

/-- Fuel-indexed implementation of Go `strings.ReplaceAll`; the fuel only
bounds the recursion depth (one unit per replaced occurrence) and
`goReplaceAll` supplies enough of it. -/
def goReplaceAllFuel : ℕ → List α → List α → List α → List α
  | 0, s, _, _ => s
  | fuel + 1, s, pat, r =>
    match firstMatch s pat with
    | none => s
    | some (a, b) => a ++ r ++ goReplaceAllFuel fuel b pat r

/-- Go `strings.ReplaceAll(s, pat, r)`: replaces every non-overlapping,
leftmost-first occurrence of `pat` by `r`; with an empty pattern, `r` is
inserted before every element and at the end, as in Go. -/
def goReplaceAll (s pat r : List α) : List α :=
  if pat = [] then
    r ++ s.flatMap (fun c => [c] ++ r)
  else goReplaceAllFuel s.length s pat r

theorem goReplaceAllFuel_of_none {s pat r : List α}
    (h : firstMatch s pat = none) :
    ∀ fuel, goReplaceAllFuel fuel s pat r = s := by
  intro fuel
  cases fuel with
  | zero => rfl
  | succ n => rw [goReplaceAllFuel, h]

theorem goReplaceAllFuel_congr {pat r : List α} (hpat : pat ≠ []) :
    ∀ f1 f2 (s : List α), s.length ≤ f1 → s.length ≤ f2 →
      goReplaceAllFuel f1 s pat r = goReplaceAllFuel f2 s pat r := by
  intro f1
  induction f1 with
  | zero =>
    intro f2 s h1 _
    have : s = [] := List.eq_nil_of_length_eq_zero (Nat.le_zero.mp h1)
    subst this
    have hnone : firstMatch ([] : List α) pat = none := by
      rw [firstMatch]
      have : ¬ pat.isPrefixOf ([] : List α) := fun hc =>
        hpat (List.prefix_nil.mp (List.isPrefixOf_iff_prefix.mp hc))
      simp [this]
    rw [goReplaceAllFuel_of_none hnone, goReplaceAllFuel_of_none hnone]
  | succ n ih =>
    intro f2 s h1 h2
    rcases hm : firstMatch s pat with _ | ⟨a, b⟩
    · rw [goReplaceAllFuel_of_none hm, goReplaceAllFuel_of_none hm]
    · have hblen : b.length < s.length := firstMatch_after_length hpat hm
      cases f2 with
      | zero =>
        exact absurd (Nat.le_zero.mp h2 ▸ hblen) (by simp)
      | succ m =>
        have hblen2 : b.length ≤ n := by omega
        have hblen3 : b.length ≤ m := by omega
        rw [goReplaceAllFuel, goReplaceAllFuel, hm]
        show a ++ r ++ goReplaceAllFuel n b pat r
          = a ++ r ++ goReplaceAllFuel m b pat r
        rw [ih m b hblen2 hblen3]

/-- Go `strings.Replace(s, pat, r, 1)`: replaces the leftmost occurrence. -/
def goReplaceOnce (s pat r : List α) : List α :=
  if pat = [] then
    r ++ s
  else
    match firstMatch s pat with
    | none => s
    | some (a, b) => a ++ r ++ b

/-- Go `strings.Cut(s, sep)`. -/
def goCut (s sep : List α) : List α × List α × Bool :=
  match firstMatch s sep with
  | none => (s, [], false)
  | some (a, b) => (a, b, true)

theorem goReplaceAll_of_none {s pat r : List α} (hpat : pat ≠ [])
    (h : firstMatch s pat = none) : goReplaceAll s pat r = s := by
  rw [goReplaceAll, if_neg hpat]
  exact goReplaceAllFuel_of_none h _

theorem goReplaceAll_of_some {s pat r a b : List α} (hpat : pat ≠ [])
    (h : firstMatch s pat = some (a, b)) :
    goReplaceAll s pat r = a ++ r ++ goReplaceAll b pat r := by
  rw [goReplaceAll, if_neg hpat, goReplaceAll, if_neg hpat]
  have hlen : b.length < s.length := firstMatch_after_length hpat h
  cases hs : s.length with
  | zero =>
    exact absurd (hs ▸ hlen) (by simp)
  | succ n =>
    rw [goReplaceAllFuel, h]
    show a ++ r ++ goReplaceAllFuel n b pat r
      = a ++ r ++ goReplaceAllFuel b.length b pat r
    rw [goReplaceAllFuel_congr hpat n b.length b (by omega) le_rfl]

/-- A pattern sharing no element with `r` cannot straddle the middle block
of `x ++ r ++ y`: any occurrence lies wholly inside `x` or wholly inside
`y`. -/
theorem infix_append_of_disjoint {p x r y : List α}
    (hd : ∀ c ∈ p, c ∉ r) (hr : r ≠ [])
    (h : p <:+: x ++ r ++ y) : p <:+: x ∨ p <:+: y := by
  rcases List.eq_nil_or_concat p with rfl | _
  · exact Or.inl List.nil_infix
  have hp : p ≠ [] := by rintro rfl; simp_all
  have hplen : 0 < p.length := List.length_pos.mpr hp
  have hrlen : 0 < r.length := List.length_pos.mpr hr
  rw [List.append_assoc] at h
  obtain ⟨k, hk, hget⟩ := List.isInfix_iff.mp h
  simp only [List.length_append] at hk
  by_cases hx : k + p.length ≤ x.length
  · left
    refine List.isInfix_iff.mpr ⟨k, by omega, fun i hi => ?_⟩
    have hlt : i + k < x.length := by omega
    rw [← @List.getElem?_append_left _ x (r ++ y) (i + k) hlt]
    exact hget i hi
  · by_cases hy : x.length + r.length ≤ k
    · right
      refine List.isInfix_iff.mpr ⟨k - x.length - r.length, by omega, fun i hi => ?_⟩
      have h1 := hget i hi
      rw [List.getElem?_append_right (by omega : x.length ≤ i + k),
        List.getElem?_append_right (by omega : r.length ≤ i + k - x.length)] at h1
      have : i + k - x.length - r.length = i + (k - x.length - r.length) := by omega
      rw [this] at h1
      exact h1
    · exfalso
      -- the occurrence overlaps the middle `r` block: extract a shared element
      set j := max k x.length with hj
      have hjk : k ≤ j := le_max_left _ _
      have hjx : x.length ≤ j := le_max_right _ _
      have hjlt : j < x.length + r.length := by omega
      have hjp : j < k + p.length := by omega
      have hi : j - k < p.length := by omega
      have h1 := hget (j - k) hi
      have hjeq : j - k + k = j := by omega
      rw [hjeq] at h1
      rw [List.getElem?_append_right (by omega : x.length ≤ j)] at h1
      have hrj : j - x.length < r.length := by omega
      rw [@List.getElem?_append_left _ r y (j - x.length) hrj,
        List.getElem?_eq_getElem hrj] at h1
      have hmem : r[j - x.length] ∈ r := List.getElem_mem _
      have : p[j - k] ∈ p := List.getElem_mem _
      exact hd _ this (Option.some.inj h1 ▸ hmem)

/-- After `goReplaceAll s pat r`, no occurrence of `pat` remains, provided
`pat` shares no element with the replacement `r`. -/
theorem goReplaceAll_no_occurrence {pat r : List α} (hpat : pat ≠ [])
    (hr : r ≠ []) (hd : ∀ c ∈ pat, c ∉ r) :
    ∀ n (s : List α), s.length ≤ n → ¬ pat <:+: goReplaceAll s pat r := by
  intro n
  induction n with
  | zero =>
    intro s hs
    have : s = [] := List.eq_nil_of_length_eq_zero (Nat.le_zero.mp hs)
    subst this
    rcases hm : firstMatch ([] : List α) pat with _ | ⟨a, b⟩
    · rw [goReplaceAll_of_none hpat hm]
      simp [hpat]
    · have := firstMatch_eq_append hm
      simp [hpat] at this
  | succ n ih =>
    intro s hs
    rcases hm : firstMatch s pat with _ | ⟨a, b⟩
    · rw [goReplaceAll_of_none hpat hm]
      exact firstMatch_none hm
    · rw [goReplaceAll_of_some hpat hm]
      intro hinf
      rcases infix_append_of_disjoint hd hr hinf with ha | hb
      · exact firstMatch_before_no_occurrence hpat hm ha
      · have hlen : b.length ≤ n :=
          Nat.le_of_lt_succ (Nat.lt_of_lt_of_le (firstMatch_after_length hpat hm) hs)
        exact ih b hlen hb

/-- `goReplaceAll` with pattern `pat` creates no new occurrence of another
pattern `q` that shares no element with `r`. -/
theorem goReplaceAll_preserves_no_occurrence {q pat r : List α}
    (hpat : pat ≠ []) (hr : r ≠ []) (hd : ∀ c ∈ q, c ∉ r) :
    ∀ n (s : List α), s.length ≤ n → ¬ q <:+: s → ¬ q <:+: goReplaceAll s pat r := by
  intro n
  induction n with
  | zero =>
    intro s hs hq
    have : s = [] := List.eq_nil_of_length_eq_zero (Nat.le_zero.mp hs)
    subst this
    rcases hm : firstMatch ([] : List α) pat with _ | ⟨a, b⟩
    · rw [goReplaceAll_of_none hpat hm]
      exact hq
    · have := firstMatch_eq_append hm
      simp [hpat] at this
  | succ n ih =>
    intro s hs hq
    rcases hm : firstMatch s pat with _ | ⟨a, b⟩
    · rw [goReplaceAll_of_none hpat hm]
      exact hq
    · rw [goReplaceAll_of_some hpat hm]
      have hsplit := firstMatch_eq_append hm
      intro hinf
      have hains : a <:+: s := ⟨[], pat ++ b, by rw [hsplit]; simp [List.append_assoc]⟩
      have hbins : b <:+: s := ⟨a ++ pat, [], by rw [hsplit]; simp⟩
      rcases infix_append_of_disjoint hd hr hinf with ha | hb
      · exact hq (ha.trans hains)
      · have hqb : ¬ q <:+: b := fun hqb => hq (hqb.trans hbins)
        have hlen : b.length ≤ n :=
          Nat.le_of_lt_succ (Nat.lt_of_lt_of_le (firstMatch_after_length hpat hm) hs)
        exact ih b hlen hqb hb

theorem goContains_eq_false {s pat : List α}
    (h : goContains s pat = false) : ¬ pat <:+: s := by
  unfold goContains at h
  rcases hm : firstMatch s pat with _ | p
  · exact firstMatch_none hm
  · rw [hm] at h
    simp at h

end TGBot

namespace TGBot

/-! ### `redact` / `redactError` (helpers.go)

The error's `Error()` text and the two secrets are Go strings, modelled as
`List Char`. -/

def redactedString : List Char := "<REDACTED>".toList

/-- `redact` from helpers.go (and, identically structured, `redactError`):
replace every occurrence of the Google AI API key, then of the Telegram
bot token, by `<REDACTED>`, each replacement guarded by a
`strings.Contains` check. -/
def redact (googleAIAPIKey telegramBotToken errText : List Char) : List Char :=
  let redacted := errText
  let redacted :=
    if goContains redacted googleAIAPIKey then
      goReplaceAll redacted googleAIAPIKey redactedString
    else redacted
  let redacted :=
    if goContains redacted telegramBotToken then
      goReplaceAll redacted telegramBotToken redactedString
    else redacted
  redacted

end TGBot

namespace TGBot

/-! ### `pcmToWav` (helpers.go)

Raw bytes are `List ℕ` with values below 256.  `u32le` / `u16le` mirror
`binary.Write(&buf, binary.LittleEndian, …)` on `uint32` / `uint16`
fields; Go's `uint32(x)` / `uint16(x)` conversions are the explicit
`% 2^32` / `% 2^16` reductions (the `int` arguments are taken
non-negative). -/

def u32le (n : ℕ) : List ℕ :=
  [n % 256, n / 2 ^ 8 % 256, n / 2 ^ 16 % 256, n / 2 ^ 24 % 256]

def u16le (n : ℕ) : List ℕ :=
  [n % 256, n / 2 ^ 8 % 256]

/-- Little-endian reading of a 4-byte field, for stating what a header
field holds. -/
def decodeU32le (l : List ℕ) : ℕ :=
  match l with
  | [b0, b1, b2, b3] => b0 + 2 ^ 8 * b1 + 2 ^ 16 * b2 + 2 ^ 24 * b3
  | _ => 0

/-- Little-endian reading of a 2-byte field. -/
def decodeU16le (l : List ℕ) : ℕ :=
  match l with
  | [b0, b1] => b0 + 2 ^ 8 * b1
  | _ => 0

/-- `pcmToWav` from helpers.go: the WAV header (44 bytes) followed by the
PCM data.  Byte strings: "RIFF" = [82,73,70,70], "WAVE" = [87,65,86,69],
"fmt " = [102,109,116,32], "data" = [100,97,116,97]. -/
def pcmToWav (pcmBytes : List ℕ) (sampleRate bitDepth numChannels : ℕ) :
    List ℕ :=
  let dataLen := pcmBytes.length % 2 ^ 32
  [82, 73, 70, 70] ++
  u32le ((36 + dataLen) % 2 ^ 32) ++
  [87, 65, 86, 69] ++
  [102, 109, 116, 32] ++
  u32le 16 ++
  u16le 1 ++
  u16le (numChannels % 2 ^ 16) ++
  u32le (sampleRate % 2 ^ 32) ++
  u32le (sampleRate * numChannels * bitDepth / 8 % 2 ^ 32) ++
  u16le (numChannels * bitDepth / 8 % 2 ^ 16) ++
  u16le (bitDepth % 2 ^ 16) ++
  [100, 97, 116, 97] ++
  u32le dataLen ++
  pcmBytes

theorem decodeU32le_u32le (n : ℕ) : decodeU32le (u32le n) = n % 2 ^ 32 := by
  simp [decodeU32le, u32le]
  omega

theorem decodeU16le_u16le (n : ℕ) : decodeU16le (u16le n) = n % 2 ^ 16 := by
  simp [decodeU16le, u16le]
  omega

end TGBot

namespace TGBot

/-! ### `strings.ToValidUTF8(s, "")` and the oversized-text fallback
(bot.go, `answer`, non-streamed path)

Go strings are byte strings; here text is `List ℕ` of byte values.
`utf8Split l` returns the leading well-formed UTF-8 character (as its
bytes) and the remainder, mirroring the acceptance ranges of Go's
`utf8.DecodeRune`; `toValidUTF8` mirrors `strings.ToValidUTF8(s, "")`,
which drops invalid byte runs (the replacement string is empty). -/

def isCont (b : ℕ) : Bool := 0x80 ≤ b && b ≤ 0xBF

def utf8Cont1OK3 (b b1 : ℕ) : Bool :=
  if b = 0xE0 then 0xA0 ≤ b1 && b1 ≤ 0xBF
  else if b = 0xED then 0x80 ≤ b1 && b1 ≤ 0x9F
  else isCont b1

def utf8Cont1OK4 (b b1 : ℕ) : Bool :=
  if b = 0xF0 then 0x90 ≤ b1 && b1 ≤ 0xBF
  else if b = 0xF4 then 0x80 ≤ b1 && b1 ≤ 0x8F
  else isCont b1

def utf8Split : List ℕ → Option (List ℕ × List ℕ)
  | [] => none
  | b :: t =>
    if b < 0x80 then some ([b], t)
    else if 0xC2 ≤ b && b ≤ 0xDF then
      match t with
      | b1 :: t1 => if isCont b1 then some ([b, b1], t1) else none
      | [] => none
    else if 0xE0 ≤ b && b ≤ 0xEF then
      match t with
      | b1 :: b2 :: t2 =>
        if utf8Cont1OK3 b b1 && isCont b2 then some ([b, b1, b2], t2) else none
      | _ => none
    else if 0xF0 ≤ b && b ≤ 0xF4 then
      match t with
      | b1 :: b2 :: b3 :: t3 =>
        if utf8Cont1OK4 b b1 && isCont b2 && isCont b3 then
          some ([b, b1, b2, b3], t3)
        else none
      | _ => none
    else none

def toValidUTF8Fuel : ℕ → List ℕ → List ℕ
  | 0, _ => []
  | _ + 1, [] => []
  | fuel + 1, b :: t =>
    match utf8Split (b :: t) with
    | some (c, rest) => c ++ toValidUTF8Fuel fuel rest
    | none => toValidUTF8Fuel fuel t

/-- `strings.ToValidUTF8(s, "")`: copy well-formed characters, drop
invalid bytes (empty replacement). -/
def toValidUTF8 (l : List ℕ) : List ℕ := toValidUTF8Fuel l.length l

def validUTF8Fuel : ℕ → List ℕ → Bool
  | 0, l => l.isEmpty
  | _ + 1, [] => true
  | fuel + 1, b :: t =>
    match utf8Split (b :: t) with
    | some (_, rest) => validUTF8Fuel fuel rest
    | none => false

/-- Whether a byte string is well-formed UTF-8 (`utf8.ValidString`). -/
def validUTF8 (l : List ℕ) : Bool := validUTF8Fuel l.length l

def charCountFuel : ℕ → List ℕ → ℕ
  | 0, _ => 0
  | _ + 1, [] => 0
  | fuel + 1, b :: t =>
    match utf8Split (b :: t) with
    | some (_, rest) => 1 + charCountFuel fuel rest
    | none => charCountFuel fuel t

/-- Number of UTF-8 characters of a byte string (`utf8.RuneCountInString`,
counting each invalid byte run position as skipped). -/
def charCount (l : List ℕ) : ℕ := charCountFuel l.length l

/-- One outbound relay decision of the non-streamed `answer` text-part
branch (bot.go): over-long text goes out as a document with a truncated
caption, short text as a plain message. -/
inductive RelayDecision where
  | asDocument (data : List ℕ) (caption : List ℕ)
  | asText (text : List ℕ)
  deriving DecidableEq

def ellipsisBytes : List ℕ := [46, 46, 46]

/-- The text-part relay branch of bot.go `answer` (non-streamed path):
`if len(generatedText) > 4096`, send the bytes as a document whose caption
is `strings.ToValidUTF8(generatedText[:128], "") + "..."`; otherwise send
a plain text message. -/
def relayFinalText (generatedText : List ℕ) : RelayDecision :=
  if 4096 < generatedText.length then
    .asDocument generatedText (toValidUTF8 (generatedText.take 128) ++ ellipsisBytes)
  else
    .asText generatedText

end TGBot

namespace TGBot

/-! ### UTF-8 lemmas -/

theorem utf8Split_eq_append {l c rest : List ℕ}
    (h : utf8Split l = some (c, rest)) : l = c ++ rest ∧ c ≠ [] := by
  match l with
  | [] => simp [utf8Split] at h
  | b :: t =>
    simp only [utf8Split] at h
    split at h
    · obtain ⟨h1, h2⟩ := Prod.mk.injEq .. ▸ Option.some.inj h
      subst h1 h2
      exact ⟨rfl, by simp⟩
    · split at h
      · split at h
        · next b1 t1 _ =>
          split at h
          · obtain ⟨h1, h2⟩ := Prod.mk.injEq .. ▸ Option.some.inj h
            subst h1 h2
            exact ⟨rfl, by simp⟩
          · exact absurd h (by simp)
        · exact absurd h (by simp)
      · split at h
        · split at h
          · next b1 b2 t2 _ =>
            split at h
            · obtain ⟨h1, h2⟩ := Prod.mk.injEq .. ▸ Option.some.inj h
              subst h1 h2
              exact ⟨rfl, by simp⟩
            · exact absurd h (by simp)
          · exact absurd h (by simp)
        · split at h
          · split at h
            · next b1 b2 b3 t3 _ =>
              split at h
              · obtain ⟨h1, h2⟩ := Prod.mk.injEq .. ▸ Option.some.inj h
                subst h1 h2
                exact ⟨rfl, by simp⟩
              · exact absurd h (by simp)
            · exact absurd h (by simp)
          · exact absurd h (by simp)

theorem utf8Split_rest_length {l c rest : List ℕ}
    (h : utf8Split l = some (c, rest)) : rest.length < l.length := by
  obtain ⟨heq, hne⟩ := utf8Split_eq_append h
  rw [heq]
  have : 0 < c.length := List.length_pos.mpr hne
  simp
  omega

theorem utf8Split_cases_on {l c rest : List ℕ} {motive : Prop}
    (h : utf8Split l = some (c, rest))
    (case1 : ∀ b t, l = b :: t → c = [b] → rest = t → b < 0x80 → motive)
    (case2 : ∀ b b1 t1, l = b :: b1 :: t1 → c = [b, b1] → rest = t1 →
      ¬ b < 0x80 → (0xC2 ≤ b && b ≤ 0xDF) = true → isCont b1 = true → motive)
    (case3 : ∀ b b1 b2 t2, l = b :: b1 :: b2 :: t2 → c = [b, b1, b2] →
      rest = t2 → ¬ b < 0x80 → (0xC2 ≤ b && b ≤ 0xDF) = false →
      (0xE0 ≤ b && b ≤ 0xEF) = true →
      (utf8Cont1OK3 b b1 && isCont b2) = true → motive)
    (case4 : ∀ b b1 b2 b3 t3, l = b :: b1 :: b2 :: b3 :: t3 →
      c = [b, b1, b2, b3] → rest = t3 → ¬ b < 0x80 →
      (0xC2 ≤ b && b ≤ 0xDF) = false → (0xE0 ≤ b && b ≤ 0xEF) = false →
      (0xF0 ≤ b && b ≤ 0xF4) = true →
      (utf8Cont1OK4 b b1 && isCont b2 && isCont b3) = true → motive) :
    motive := by
  match l with
  | [] => simp [utf8Split] at h
  | b :: t =>
    by_cases h80 : b < 0x80
    · simp only [utf8Split, if_pos h80] at h
      obtain ⟨h1, h2⟩ := Prod.mk.injEq .. ▸ Option.some.inj h
      exact case1 b t rfl h1.symm h2.symm h80
    · by_cases hb2 : (0xC2 ≤ b && b ≤ 0xDF) = true
      · match t with
        | [] => simp [utf8Split, h80, hb2] at h
        | b1 :: t1 =>
          by_cases hcont : isCont b1 = true
          · simp only [utf8Split, if_neg h80, hb2, if_pos rfl, hcont] at h
            obtain ⟨h1, h2⟩ := Prod.mk.injEq .. ▸ Option.some.inj h
            exact case2 b b1 t1 rfl h1.symm h2.symm h80 hb2 hcont
          · simp [utf8Split, h80, hb2, hcont] at h
      · have hb2' : (0xC2 ≤ b && b ≤ 0xDF) = false := by
          simpa using hb2
        by_cases hb3 : (0xE0 ≤ b && b ≤ 0xEF) = true
        · match t with
          | [] => simp [utf8Split, h80, hb2', hb3] at h
          | [b1] => simp [utf8Split, h80, hb2', hb3] at h
          | b1 :: b2 :: t2 =>
            by_cases hcont : (utf8Cont1OK3 b b1 && isCont b2) = true
            · simp only [utf8Split, if_neg h80, hb2', hb3, if_pos rfl,
                Bool.false_eq_true, if_false, hcont] at h
              obtain ⟨h1, h2⟩ := Prod.mk.injEq .. ▸ Option.some.inj h
              exact case3 b b1 b2 t2 rfl h1.symm h2.symm h80 hb2' hb3 hcont
            · simp [utf8Split, h80, hb2', hb3, hcont] at h
        · have hb3' : (0xE0 ≤ b && b ≤ 0xEF) = false := by
            simpa using hb3
          by_cases hb4 : (0xF0 ≤ b && b ≤ 0xF4) = true
          · match t with
            | [] => simp [utf8Split, h80, hb2', hb3', hb4] at h
            | [b1] => simp [utf8Split, h80, hb2', hb3', hb4] at h
            | [b1, b2] => simp [utf8Split, h80, hb2', hb3', hb4] at h
            | b1 :: b2 :: b3 :: t3 =>
              by_cases hcont : (utf8Cont1OK4 b b1 && isCont b2 && isCont b3) = true
              · simp only [utf8Split, if_neg h80, hb2', hb3', hb4, if_pos rfl,
                  Bool.false_eq_true, if_false, hcont] at h
                obtain ⟨h1, h2⟩ := Prod.mk.injEq .. ▸ Option.some.inj h
                exact case4 b b1 b2 b3 t3 rfl h1.symm h2.symm h80 hb2' hb3' hb4 hcont
              · simp [utf8Split, h80, hb2', hb3', hb4, hcont] at h
          · have hb4' : (0xF0 ≤ b && b ≤ 0xF4) = false := by
              simpa using hb4
            simp [utf8Split, h80, hb2', hb3', hb4'] at h

theorem utf8Split_shapes {l c rest : List ℕ}
    (h : utf8Split l = some (c, rest)) :
    (∃ b, c = [b] ∧ b < 0x80) ∨
    (∃ b b1, c = [b, b1] ∧ 0xC2 ≤ b ∧ b ≤ 0xDF ∧ isCont b1 = true) ∨
    (∃ b b1 b2, c = [b, b1, b2] ∧ 0xE0 ≤ b ∧ b ≤ 0xEF ∧
      utf8Cont1OK3 b b1 = true ∧ isCont b2 = true) ∨
    (∃ b b1 b2 b3, c = [b, b1, b2, b3] ∧ 0xF0 ≤ b ∧ b ≤ 0xF4 ∧
      utf8Cont1OK4 b b1 = true ∧ isCont b2 = true ∧ isCont b3 = true) := by
  refine utf8Split_cases_on h ?_ ?_ ?_ ?_
  · intro b t _ hc _ h80
    exact Or.inl ⟨b, hc, h80⟩
  · intro b b1 t1 _ hc _ _ hb2 hcont
    obtain ⟨ha, hb⟩ := Bool.and_eq_true .. ▸ hb2
    exact Or.inr (Or.inl ⟨b, b1, hc, by simpa using ha, by simpa using hb, hcont⟩)
  · intro b b1 b2 t2 _ hc _ _ _ hb3 hcont
    obtain ⟨ha, hb⟩ := Bool.and_eq_true .. ▸ hb3
    obtain ⟨hc1, hc2⟩ := Bool.and_eq_true .. ▸ hcont
    exact Or.inr (Or.inr (Or.inl ⟨b, b1, b2, hc, by simpa using ha,
      by simpa using hb, hc1, hc2⟩))
  · intro b b1 b2 b3 t3 _ hc _ _ _ _ hb4 hcont
    obtain ⟨ha, hb⟩ := Bool.and_eq_true .. ▸ hb4
    obtain ⟨hc12, hc3⟩ := Bool.and_eq_true .. ▸ hcont
    obtain ⟨hc1, hc2⟩ := Bool.and_eq_true .. ▸ hc12
    exact Or.inr (Or.inr (Or.inr ⟨b, b1, b2, b3, hc, by simpa using ha,
      by simpa using hb, hc1, hc2, hc3⟩))

theorem utf8Split_prepend {l c rest : List ℕ}
    (h : utf8Split l = some (c, rest)) (t' : List ℕ) :
    utf8Split (c ++ t') = some (c, t') := by
  refine utf8Split_cases_on h ?_ ?_ ?_ ?_
  · intro b t _ hc _ h80
    subst hc
    simp [utf8Split, h80]
  · intro b b1 t1 _ hc _ h80 hb2 hcont
    subst hc
    simp [utf8Split, h80, hb2, hcont]
  · intro b b1 b2 t2 _ hc _ h80 hb2 hb3 hcont
    subst hc
    simp [utf8Split, h80, hb2, hb3, hcont]
  · intro b b1 b2 b3 t3 _ hc _ h80 hb2 hb3 hb4 hcont
    subst hc
    simp [utf8Split, h80, hb2, hb3, hb4, hcont]

theorem isCont_range {b : ℕ} (h : isCont b = true) : 0x80 ≤ b ∧ b ≤ 0xBF := by
  simpa [isCont] using h

theorem utf8Cont1OK3_range {b b1 : ℕ} (h : utf8Cont1OK3 b b1 = true) :
    0x80 ≤ b1 ∧ b1 ≤ 0xBF := by
  unfold utf8Cont1OK3 at h
  split_ifs at h <;> simp [isCont] at h <;> omega

theorem utf8Cont1OK4_range {b b1 : ℕ} (h : utf8Cont1OK4 b b1 = true) :
    0x80 ≤ b1 ∧ b1 ≤ 0xBF := by
  unfold utf8Cont1OK4 at h
  split_ifs at h <;> simp [isCont] at h <;> omega

theorem utf8Split_cont_none {b : ℕ} (h1 : 0x80 ≤ b) (h2 : b ≤ 0xBF)
    (t : List ℕ) : utf8Split (b :: t) = none := by
  have e1 : ¬ (b < 0x80) := by omega
  have e2 : (0xC2 ≤ b && b ≤ 0xDF) = false := by simp; omega
  have e3 : (0xE0 ≤ b && b ≤ 0xEF) = false := by simp; omega
  have e4 : (0xF0 ≤ b && b ≤ 0xF4) = false := by simp; omega
  simp [utf8Split, e1, e2, e3, e4]

theorem utf8Split_leader2_short {b : ℕ} (h1 : 0xC2 ≤ b) (h2 : b ≤ 0xDF) :
    utf8Split [b] = none := by
  have e1 : ¬ (b < 0x80) := by omega
  have e2 : (0xC2 ≤ b && b ≤ 0xDF) = true := by simp; omega
  simp [utf8Split, e1, e2]

theorem utf8Split_leader3_short {b : ℕ} (h1 : 0xE0 ≤ b) (h2 : b ≤ 0xEF) :
    utf8Split [b] = none ∧ ∀ b1, utf8Split [b, b1] = none := by
  have e1 : ¬ (b < 0x80) := by omega
  have e2 : (0xC2 ≤ b && b ≤ 0xDF) = false := by simp; omega
  have e3 : (0xE0 ≤ b && b ≤ 0xEF) = true := by simp; omega
  exact ⟨by simp [utf8Split, e1, e2, e3], fun b1 => by simp [utf8Split, e1, e2, e3]⟩

theorem utf8Split_leader4_short {b : ℕ} (h1 : 0xF0 ≤ b) (h2 : b ≤ 0xF4) :
    utf8Split [b] = none ∧ (∀ b1, utf8Split [b, b1] = none) ∧
      ∀ b1 b2, utf8Split [b, b1, b2] = none := by
  have e1 : ¬ (b < 0x80) := by omega
  have e2 : (0xC2 ≤ b && b ≤ 0xDF) = false := by simp; omega
  have e3 : (0xE0 ≤ b && b ≤ 0xEF) = false := by simp; omega
  have e4 : (0xF0 ≤ b && b ≤ 0xF4) = true := by simp; omega
  exact ⟨by simp [utf8Split, e1, e2, e3, e4],
    fun b1 => by simp [utf8Split, e1, e2, e3, e4],
    fun b1 b2 => by simp [utf8Split, e1, e2, e3, e4]⟩

theorem toValidUTF8Fuel_nil : ∀ f, toValidUTF8Fuel f [] = [] := by
  intro f
  cases f with
  | zero => rfl
  | succ n => rfl

theorem toValidUTF8Fuel_succ_some {l c rest : List ℕ} {n : ℕ}
    (h : utf8Split l = some (c, rest)) :
    toValidUTF8Fuel (n + 1) l = c ++ toValidUTF8Fuel n rest := by
  match l with
  | [] => simp [utf8Split] at h
  | b :: t => rw [toValidUTF8Fuel, h]

theorem toValidUTF8Fuel_succ_none {b : ℕ} {t : List ℕ} {n : ℕ}
    (h : utf8Split (b :: t) = none) :
    toValidUTF8Fuel (n + 1) (b :: t) = toValidUTF8Fuel n t := by
  rw [toValidUTF8Fuel, h]

theorem toValidUTF8Fuel_congr :
    ∀ f1 f2 (l : List ℕ), l.length ≤ f1 → l.length ≤ f2 →
      toValidUTF8Fuel f1 l = toValidUTF8Fuel f2 l := by
  intro f1
  induction f1 with
  | zero =>
    intro f2 l h1 _
    have : l = [] := List.eq_nil_of_length_eq_zero (Nat.le_zero.mp h1)
    subst this
    rw [toValidUTF8Fuel_nil, toValidUTF8Fuel_nil]
  | succ n ih =>
    intro f2 l h1 h2
    match l with
    | [] => rw [toValidUTF8Fuel_nil, toValidUTF8Fuel_nil]
    | b :: t =>
      obtain ⟨m, rfl⟩ : ∃ m, f2 = m + 1 := by
        cases f2 with
        | zero => simp at h2
        | succ m => exact ⟨m, rfl⟩
      rcases hsp : utf8Split (b :: t) with _ | ⟨c, rest⟩
      · rw [toValidUTF8Fuel_succ_none hsp, toValidUTF8Fuel_succ_none hsp]
        have ht : t.length ≤ n := by simp at h1; omega
        have ht2 : t.length ≤ m := by simp at h2; omega
        exact ih m t ht ht2
      · rw [toValidUTF8Fuel_succ_some hsp, toValidUTF8Fuel_succ_some hsp]
        have hr := utf8Split_rest_length hsp
        have hr1 : rest.length ≤ n := by simp at hr h1; omega
        have hr2 : rest.length ≤ m := by simp at hr h2; omega
        rw [ih m rest hr1 hr2]

theorem toValidUTF8_split_some {l c rest : List ℕ}
    (h : utf8Split l = some (c, rest)) :
    toValidUTF8 l = c ++ toValidUTF8 rest := by
  obtain ⟨heq, hne⟩ := utf8Split_eq_append h
  have hl : l ≠ [] := by
    rw [heq]; simp [hne]
  obtain ⟨n, hn⟩ : ∃ n, l.length = n + 1 := by
    cases hll : l.length with
    | zero => exact absurd (List.eq_nil_of_length_eq_zero hll) hl
    | succ k => exact ⟨k, rfl⟩
  unfold toValidUTF8
  rw [hn, toValidUTF8Fuel_succ_some h]
  have hr := utf8Split_rest_length h
  rw [toValidUTF8Fuel_congr n rest.length rest (by omega) le_rfl]

theorem toValidUTF8_cons_none {b : ℕ} {t : List ℕ}
    (h : utf8Split (b :: t) = none) : toValidUTF8 (b :: t) = toValidUTF8 t := by
  unfold toValidUTF8
  have : (b :: t).length = t.length + 1 := by simp
  rw [this, toValidUTF8Fuel_succ_none h]

theorem validUTF8Fuel_nil : ∀ f, validUTF8Fuel f [] = true := by
  intro f
  cases f with
  | zero => rfl
  | succ n => rfl

theorem validUTF8Fuel_succ_some {l c rest : List ℕ} {n : ℕ}
    (h : utf8Split l = some (c, rest)) :
    validUTF8Fuel (n + 1) l = validUTF8Fuel n rest := by
  match l with
  | [] => simp [utf8Split] at h
  | b :: t => rw [validUTF8Fuel, h]

theorem validUTF8Fuel_succ_none {b : ℕ} {t : List ℕ} {n : ℕ}
    (h : utf8Split (b :: t) = none) :
    validUTF8Fuel (n + 1) (b :: t) = false := by
  rw [validUTF8Fuel, h]

theorem validUTF8Fuel_congr :
    ∀ f1 f2 (l : List ℕ), l.length ≤ f1 → l.length ≤ f2 →
      validUTF8Fuel f1 l = validUTF8Fuel f2 l := by
  intro f1
  induction f1 with
  | zero =>
    intro f2 l h1 _
    have : l = [] := List.eq_nil_of_length_eq_zero (Nat.le_zero.mp h1)
    subst this
    rw [validUTF8Fuel_nil, validUTF8Fuel_nil]
  | succ n ih =>
    intro f2 l h1 h2
    match l with
    | [] => rw [validUTF8Fuel_nil, validUTF8Fuel_nil]
    | b :: t =>
      obtain ⟨m, rfl⟩ : ∃ m, f2 = m + 1 := by
        cases f2 with
        | zero => simp at h2
        | succ m => exact ⟨m, rfl⟩
      rcases hsp : utf8Split (b :: t) with _ | ⟨c, rest⟩
      · rw [validUTF8Fuel_succ_none hsp, validUTF8Fuel_succ_none hsp]
      · rw [validUTF8Fuel_succ_some hsp, validUTF8Fuel_succ_some hsp]
        have hr := utf8Split_rest_length hsp
        have hr1 : rest.length ≤ n := by simp at hr h1; omega
        have hr2 : rest.length ≤ m := by simp at hr h2; omega
        exact ih m rest hr1 hr2

theorem validUTF8_split_some {l c rest : List ℕ}
    (h : utf8Split l = some (c, rest)) : validUTF8 l = validUTF8 rest := by
  obtain ⟨heq, hne⟩ := utf8Split_eq_append h
  have hl : l ≠ [] := by rw [heq]; simp [hne]
  obtain ⟨n, hn⟩ : ∃ n, l.length = n + 1 := by
    cases hll : l.length with
    | zero => exact absurd (List.eq_nil_of_length_eq_zero hll) hl
    | succ k => exact ⟨k, rfl⟩
  unfold validUTF8
  rw [hn, validUTF8Fuel_succ_some h]
  have hr := utf8Split_rest_length h
  exact validUTF8Fuel_congr n rest.length rest (by omega) le_rfl

theorem validUTF8_cons_none {b : ℕ} {t : List ℕ}
    (h : utf8Split (b :: t) = none) : validUTF8 (b :: t) = false := by
  unfold validUTF8
  have : (b :: t).length = t.length + 1 := by simp
  rw [this, validUTF8Fuel_succ_none h]

theorem charCountFuel_nil : ∀ f, charCountFuel f [] = 0 := by
  intro f
  cases f with
  | zero => rfl
  | succ n => rfl

theorem charCountFuel_succ_some {l c rest : List ℕ} {n : ℕ}
    (h : utf8Split l = some (c, rest)) :
    charCountFuel (n + 1) l = 1 + charCountFuel n rest := by
  match l with
  | [] => simp [utf8Split] at h
  | b :: t => rw [charCountFuel, h]

theorem charCountFuel_succ_none {b : ℕ} {t : List ℕ} {n : ℕ}
    (h : utf8Split (b :: t) = none) :
    charCountFuel (n + 1) (b :: t) = charCountFuel n t := by
  rw [charCountFuel, h]

theorem charCountFuel_congr :
    ∀ f1 f2 (l : List ℕ), l.length ≤ f1 → l.length ≤ f2 →
      charCountFuel f1 l = charCountFuel f2 l := by
  intro f1
  induction f1 with
  | zero =>
    intro f2 l h1 _
    have : l = [] := List.eq_nil_of_length_eq_zero (Nat.le_zero.mp h1)
    subst this
    rw [charCountFuel_nil, charCountFuel_nil]
  | succ n ih =>
    intro f2 l h1 h2
    match l with
    | [] => rw [charCountFuel_nil, charCountFuel_nil]
    | b :: t =>
      obtain ⟨m, rfl⟩ : ∃ m, f2 = m + 1 := by
        cases f2 with
        | zero => simp at h2
        | succ m => exact ⟨m, rfl⟩
      rcases hsp : utf8Split (b :: t) with _ | ⟨c, rest⟩
      · rw [charCountFuel_succ_none hsp, charCountFuel_succ_none hsp]
        have ht : t.length ≤ n := by simp at h1; omega
        have ht2 : t.length ≤ m := by simp at h2; omega
        exact ih m t ht ht2
      · rw [charCountFuel_succ_some hsp, charCountFuel_succ_some hsp]
        have hr := utf8Split_rest_length hsp
        have hr1 : rest.length ≤ n := by simp at hr h1; omega
        have hr2 : rest.length ≤ m := by simp at hr h2; omega
        rw [ih m rest hr1 hr2]

theorem charCount_split_some {l c rest : List ℕ}
    (h : utf8Split l = some (c, rest)) :
    charCount l = 1 + charCount rest := by
  obtain ⟨heq, hne⟩ := utf8Split_eq_append h
  have hl : l ≠ [] := by rw [heq]; simp [hne]
  obtain ⟨n, hn⟩ : ∃ n, l.length = n + 1 := by
    cases hll : l.length with
    | zero => exact absurd (List.eq_nil_of_length_eq_zero hll) hl
    | succ k => exact ⟨k, rfl⟩
  unfold charCount
  rw [hn, charCountFuel_succ_some h]
  have hr := utf8Split_rest_length h
  rw [charCountFuel_congr n rest.length rest (by omega) le_rfl]

theorem charCount_cons_none {b : ℕ} {t : List ℕ}
    (h : utf8Split (b :: t) = none) : charCount (b :: t) = charCount t := by
  unfold charCount
  have : (b :: t).length = t.length + 1 := by simp
  rw [this, charCountFuel_succ_none h]

theorem charCount_le_length : ∀ n (l : List ℕ), l.length ≤ n →
    charCount l ≤ l.length := by
  intro n
  induction n with
  | zero =>
    intro l h
    have : l = [] := List.eq_nil_of_length_eq_zero (Nat.le_zero.mp h)
    subst this
    simp [charCount, charCountFuel_nil]
  | succ n ih =>
    intro l h
    match l with
    | [] => simp [charCount, charCountFuel_nil]
    | b :: t =>
      rcases hsp : utf8Split (b :: t) with _ | ⟨c, rest⟩
      · rw [charCount_cons_none hsp]
        have := ih t (by simp at h; omega)
        simp
        omega
      · rw [charCount_split_some hsp]
        have hr := utf8Split_rest_length hsp
        have := ih rest (by simp at hr h ⊢; omega)
        obtain ⟨heq, hne⟩ := utf8Split_eq_append hsp
        have hc : 0 < c.length := List.length_pos.mpr hne
        rw [heq]
        simp
        omega

/-- Every strict byte prefix of one well-formed character is entirely
dropped by `toValidUTF8`. -/
theorem toValidUTF8_char_strict_prefix {l c rest : List ℕ}
    (h : utf8Split l = some (c, rest)) :
    ∀ k, k < c.length → toValidUTF8 (c.take k) = [] := by
  intro k hk
  have hnil : toValidUTF8 [] = [] := rfl
  rcases utf8Split_shapes h with ⟨b, rfl, _⟩ |
    ⟨b, b1, rfl, hb1, hb2, hcont⟩ |
    ⟨b, b1, b2, rfl, hb1, hb2, hc1, hc2⟩ |
    ⟨b, b1, b2, b3, rfl, hb1, hb2, hc1, hc2, hc3⟩
  · simp at hk
    subst hk
    exact hnil
  · simp at hk
    rcases k with _ | _ | k
    · exact hnil
    · show toValidUTF8 [b] = []
      rw [show ([b] : List ℕ) = b :: [] from rfl,
        toValidUTF8_cons_none (utf8Split_leader2_short hb1 hb2)]
      exact hnil
    · omega
  · simp at hk
    obtain ⟨hcr1, hcr2⟩ := utf8Cont1OK3_range hc1
    rcases k with _ | _ | _ | k
    · exact hnil
    · show toValidUTF8 [b] = []
      rw [show ([b] : List ℕ) = b :: [] from rfl,
        toValidUTF8_cons_none (utf8Split_leader3_short hb1 hb2).1]
      exact hnil
    · show toValidUTF8 [b, b1] = []
      rw [show ([b, b1] : List ℕ) = b :: [b1] from rfl,
        toValidUTF8_cons_none ((utf8Split_leader3_short hb1 hb2).2 b1),
        show ([b1] : List ℕ) = b1 :: [] from rfl,
        toValidUTF8_cons_none (utf8Split_cont_none hcr1 hcr2 [])]
      exact hnil
    · omega
  · simp at hk
    obtain ⟨hcr1, hcr2⟩ := utf8Cont1OK4_range hc1
    obtain ⟨hc2r1, hc2r2⟩ := isCont_range hc2
    rcases k with _ | _ | _ | _ | k
    · exact hnil
    · show toValidUTF8 [b] = []
      rw [show ([b] : List ℕ) = b :: [] from rfl,
        toValidUTF8_cons_none (utf8Split_leader4_short hb1 hb2).1]
      exact hnil
    · show toValidUTF8 [b, b1] = []
      rw [show ([b, b1] : List ℕ) = b :: [b1] from rfl,
        toValidUTF8_cons_none ((utf8Split_leader4_short hb1 hb2).2.1 b1),
        show ([b1] : List ℕ) = b1 :: [] from rfl,
        toValidUTF8_cons_none (utf8Split_cont_none hcr1 hcr2 [])]
      exact hnil
    · show toValidUTF8 [b, b1, b2] = []
      rw [show ([b, b1, b2] : List ℕ) = b :: [b1, b2] from rfl,
        toValidUTF8_cons_none ((utf8Split_leader4_short hb1 hb2).2.2 b1 b2),
        show ([b1, b2] : List ℕ) = b1 :: [b2] from rfl,
        toValidUTF8_cons_none (utf8Split_cont_none hcr1 hcr2 [b2]),
        show ([b2] : List ℕ) = b2 :: [] from rfl,
        toValidUTF8_cons_none (utf8Split_cont_none hc2r1 hc2r2 [])]
      exact hnil
    · omega

/-- For well-formed input, `toValidUTF8` of any `take k` is a prefix of
the input of byte length at most `k`, itself well-formed. -/
theorem toValidUTF8_take_prefix : ∀ n (l : List ℕ), l.length ≤ n →
    validUTF8 l = true → ∀ k,
      toValidUTF8 (l.take k) <+: l ∧ (toValidUTF8 (l.take k)).length ≤ k ∧
        validUTF8 (toValidUTF8 (l.take k)) = true := by
  intro n
  induction n with
  | zero =>
    intro l h _ k
    have : l = [] := List.eq_nil_of_length_eq_zero (Nat.le_zero.mp h)
    subst this
    simp only [List.take_nil]
    exact ⟨List.nil_prefix, Nat.zero_le k, rfl⟩
  | succ n ih =>
    intro l hlen hv k
    match l with
    | [] =>
      simp only [List.take_nil]
      exact ⟨List.nil_prefix, Nat.zero_le k, rfl⟩
    | b :: t =>
      rcases hsp : utf8Split (b :: t) with _ | ⟨c, rest⟩
      · rw [validUTF8_cons_none hsp] at hv
        simp at hv
      · obtain ⟨heq, hne⟩ := utf8Split_eq_append hsp
        have hvrest : validUTF8 rest = true := by
          rw [← validUTF8_split_some hsp]; exact hv
        have hr := utf8Split_rest_length hsp
        have hrn : rest.length ≤ n := by omega
        by_cases hkc : k < c.length
        · have htake : (b :: t).take k = c.take k := by
            rw [heq, List.take_append_eq_append_take]
            have : k - c.length = 0 := by omega
            rw [this]
            simp
          rw [htake, toValidUTF8_char_strict_prefix hsp k hkc]
          exact ⟨List.nil_prefix, Nat.zero_le k, rfl⟩
        · push_neg at hkc
          have htake : (b :: t).take k = c ++ rest.take (k - c.length) := by
            rw [heq, List.take_append_eq_append_take]
            congr 1
            exact List.take_of_length_le hkc
          have hpre : utf8Split (c ++ rest.take (k - c.length))
              = some (c, rest.take (k - c.length)) :=
            utf8Split_prepend hsp _
          rw [htake, toValidUTF8_split_some hpre]
          obtain ⟨ih1, ih2, ih3⟩ := ih rest hrn hvrest (k - c.length)
          refine ⟨?_, ?_, ?_⟩
          · rw [heq]
            exact (List.prefix_append_right_inj c).mpr ih1
          · have hc : 0 < c.length := List.length_pos.mpr hne
            simp
            omega
          · have hpre2 : utf8Split (c ++ toValidUTF8 (rest.take (k - c.length)))
                = some (c, toValidUTF8 (rest.take (k - c.length))) :=
              utf8Split_prepend hsp _
            rw [validUTF8_split_some hpre2]
            exact ih3

theorem validUTF8_ascii : ∀ l : List ℕ, (∀ b ∈ l, b < 0x80) →
    validUTF8 l = true := by
  intro l
  induction l with
  | nil => intro _; rfl
  | cons b t ih =>
    intro h
    have hb : b < 0x80 := h b (by simp)
    have hsp : utf8Split (b :: t) = some ([b], t) := by simp [utf8Split, hb]
    rw [validUTF8_split_some hsp]
    exact ih (fun x hx => h x (by simp [hx]))

theorem charCount_ascii : ∀ l : List ℕ, (∀ b ∈ l, b < 0x80) →
    charCount l = l.length := by
  intro l
  induction l with
  | nil => intro _; rfl
  | cons b t ih =>
    intro h
    have hb : b < 0x80 := h b (by simp)
    have hsp : utf8Split (b :: t) = some ([b], t) := by simp [utf8Split, hb]
    rw [charCount_split_some hsp, ih (fun x hx => h x (by simp [hx]))]
    simp
    omega

end TGBot

namespace TGBot

/-! ### The streaming `answer` pipeline (messages.go — src/unnamed/part_003)

`answer` drives `GenerateStreamed` with a callback closure over
`firstMessageID` and `mergedText`.  The callback body (lines 397–490) is
embedded as `streamCallback`, one step per `gt.StreamCallbackData` event,
consumed in arrival order by a fold.  The Telegram platform is an oracle:
`platform n` is the message id returned by the `n`-th `sendMessage` call
(`none` = the send failed), `editOK n` tells whether the `n`-th
`updateMessage` call succeeded.  The collected `errs` list is modelled by
its length, and outbound chat calls are accumulated in `calls`. -/

structure NumTokens where
  input : ℕ
  output : ℕ
  deriving DecidableEq

/-- `gt.StreamCallbackData`: one streamed event. -/
structure StreamCallbackData where
  finishReason : Option (List Char)
  textDelta : Option (List Char)
  error : Option (List Char)
  numTokens : Option NumTokens

/-- One outbound chat call issued while streaming: the initial
`sendMessage` (create), a subsequent `updateMessage` (edit), or the
stream-error `sendMessage`. -/
inductive ChatCall where
  | createMessage (content : List Char) (replyToID : ℤ)
  | editMessage (content : List Char) (messageID : ℤ)
  | sendErrorMessage (content : List Char)
  deriving DecidableEq

def ChatCall.isCreate : ChatCall → Bool
  | .createMessage _ _ => true
  | _ => false

structure AnswerStreamState where
  firstMessageID : Option ℤ
  mergedText : List Char
  numTokensInput : ℕ
  numTokensOutput : ℕ
  calls : List ChatCall
  sendAttempts : ℕ
  editAttempts : ℕ
  errs : ℕ
  deriving DecidableEq

def finishReasonStop : List Char := "STOP".toList

/-- The shared send-first-or-edit block of the callback: append
`generatedText` to `mergedText`; if no message was sent yet, `sendMessage`
the new text (recording its id on success), else `updateMessage` the first
message with the whole buffer. -/
def relayGeneratedText (platform : ℕ → Option ℤ) (editOK : ℕ → Bool)
    (messageID : ℤ) (st : AnswerStreamState) (generatedText : List Char) :
    AnswerStreamState :=
  let st := { st with mergedText := st.mergedText ++ generatedText }
  match st.firstMessageID with
  | none =>
    let res := platform st.sendAttempts
    { st with
      calls := st.calls ++ [.createMessage generatedText messageID]
      sendAttempts := st.sendAttempts + 1
      firstMessageID := res
      errs := st.errs + (match res with | some _ => 0 | none => 1) }
  | some mid =>
    let ok := editOK st.editAttempts
    { st with
      calls := st.calls ++ [.editMessage st.mergedText mid]
      editAttempts := st.editAttempts + 1
      errs := st.errs + (if ok then 0 else 1) }

/-- First block of the callback (`// check finish reason`): a non-`STOP`
finish reason is surfaced inline as a `<<<REASON>>>` marker. -/
def finishReasonStage (platform : ℕ → Option ℤ) (editOK : ℕ → Bool)
    (messageID : ℤ) (st : AnswerStreamState) (data : StreamCallbackData) :
    AnswerStreamState :=
  match data.finishReason with
  | some fr =>
    if fr ≠ finishReasonStop then
      relayGeneratedText platform editOK messageID st
        ("<<<".toList ++ fr ++ ">>>".toList)
    else st
  | none => st

/-- Second block (`// check stream content`): a text delta is relayed;
otherwise a stream error is collected and reported in-chat. -/
def contentStage (platform : ℕ → Option ℤ) (editOK : ℕ → Bool)
    (messageID : ℤ) (st : AnswerStreamState) (data : StreamCallbackData) :
    AnswerStreamState :=
  match data.textDelta with
  | some delta => relayGeneratedText platform editOK messageID st delta
  | none =>
    match data.error with
    | some e =>
      let st := { st with errs := st.errs + 1 }
      let res := platform st.sendAttempts
      { st with
        calls := st.calls ++ [.sendErrorMessage ("Stream error: ".toList ++ e)]
        sendAttempts := st.sendAttempts + 1
        errs := st.errs + (match res with | some _ => 0 | none => 1) }
    | none => st

/-- Third block (`// check tokens`): token counters are high-water marks
over the reported counts. -/
def tokenStage (st : AnswerStreamState) (data : StreamCallbackData) :
    AnswerStreamState :=
  match data.numTokens with
  | some nt =>
    { st with
      numTokensInput :=
        if st.numTokensInput < nt.input then nt.input else st.numTokensInput
      numTokensOutput :=
        if st.numTokensOutput < nt.output then nt.output else st.numTokensOutput }
  | none => st

/-- The streaming callback body of `answer` (messages.go): the
finish-reason block, then the text-delta / stream-error block, then the
token-count block, in source order. -/
def streamCallback (platform : ℕ → Option ℤ) (editOK : ℕ → Bool)
    (messageID : ℤ) (st : AnswerStreamState) (data : StreamCallbackData) :
    AnswerStreamState :=
  tokenStage
    (contentStage platform editOK messageID
      (finishReasonStage platform editOK messageID st data) data) data

def initAnswerStreamState : AnswerStreamState :=
  { firstMessageID := none, mergedText := [], numTokensInput := 0,
    numTokensOutput := 0, calls := [], sendAttempts := 0, editAttempts := 0,
    errs := 0 }

/-- Consume a finite stream of events in arrival order. -/
def runAnswerStream (platform : ℕ → Option ℤ) (editOK : ℕ → Bool)
    (messageID : ℤ) (events : List StreamCallbackData) : AnswerStreamState :=
  events.foldl (streamCallback platform editOK messageID) initAnswerStreamState

/-- A pure text-delta event. -/
def textEvent (d : List Char) : StreamCallbackData :=
  { finishReason := none, textDelta := some d, error := none, numTokens := none }

/-- The cumulative edit trail expected after the first message exists:
one edit per delta, each carrying the whole buffer so far. -/
def editTrail (m : List Char) (ds : List (List Char)) (mid : ℤ) :
    List ChatCall :=
  match ds with
  | [] => []
  | d :: tail => .editMessage (m ++ d) mid :: editTrail (m ++ d) tail mid

end TGBot

namespace TGBot

/-! ### Streaming lemmas -/

theorem streamCallback_textEvent (platform : ℕ → Option ℤ) (editOK : ℕ → Bool)
    (messageID : ℤ) (st : AnswerStreamState) (d : List Char) :
    streamCallback platform editOK messageID st (textEvent d)
      = relayGeneratedText platform editOK messageID st d := rfl

theorem relayGeneratedText_some {platform : ℕ → Option ℤ} {editOK : ℕ → Bool}
    {messageID : ℤ} {st : AnswerStreamState} {mid : ℤ} {d : List Char}
    (h : st.firstMessageID = some mid) :
    relayGeneratedText platform editOK messageID st d =
      { st with
        mergedText := st.mergedText ++ d
        calls := st.calls ++ [.editMessage (st.mergedText ++ d) mid]
        editAttempts := st.editAttempts + 1
        errs := st.errs + (if editOK st.editAttempts then 0 else 1) } := by
  unfold relayGeneratedText
  rw [h]

theorem relayGeneratedText_none {platform : ℕ → Option ℤ} {editOK : ℕ → Bool}
    {messageID : ℤ} {st : AnswerStreamState} {d : List Char}
    (h : st.firstMessageID = none) :
    relayGeneratedText platform editOK messageID st d =
      { st with
        mergedText := st.mergedText ++ d
        calls := st.calls ++ [.createMessage d messageID]
        sendAttempts := st.sendAttempts + 1
        firstMessageID := platform st.sendAttempts
        errs := st.errs +
          (match platform st.sendAttempts with | some _ => 0 | none => 1) } := by
  unfold relayGeneratedText
  rw [h]

/-- Once the first message exists, a run of text-delta events appends
exactly the cumulative edit trail. -/
theorem runFrom_textEvents_some (platform : ℕ → Option ℤ) (editOK : ℕ → Bool)
    (messageID : ℤ) :
    ∀ (ds : List (List Char)) (st : AnswerStreamState) (mid : ℤ),
      st.firstMessageID = some mid →
      ((ds.map textEvent).foldl (streamCallback platform editOK messageID) st).calls
          = st.calls ++ editTrail st.mergedText ds mid ∧
      ((ds.map textEvent).foldl (streamCallback platform editOK messageID) st).mergedText
          = st.mergedText ++ ds.flatten ∧
      ((ds.map textEvent).foldl (streamCallback platform editOK messageID) st).firstMessageID
          = some mid := by
  intro ds
  induction ds with
  | nil =>
    intro st mid h
    simp [editTrail, h]
  | cons d tail ih =>
    intro st mid h
    simp only [List.map_cons, List.foldl_cons, streamCallback_textEvent,
      relayGeneratedText_some h]
    set st' : AnswerStreamState :=
      { st with
        mergedText := st.mergedText ++ d
        calls := st.calls ++ [.editMessage (st.mergedText ++ d) mid]
        editAttempts := st.editAttempts + 1
        errs := st.errs + (if editOK st.editAttempts then 0 else 1) }
      with hst'
    obtain ⟨h1, h2, h3⟩ := ih st' mid (by exact h)
    refine ⟨?_, ?_, h3⟩
    · rw [h1, hst']
      simp [editTrail]
    · rw [h2, hst']
      simp

theorem editTrail_length (mid : ℤ) :
    ∀ (ds : List (List Char)) (m : List Char),
      (editTrail m ds mid).length = ds.length := by
  intro ds
  induction ds with
  | nil => intro m; rfl
  | cons d tail ih =>
    intro m
    simp [editTrail, ih]

theorem editTrail_no_create (mid : ℤ) :
    ∀ (ds : List (List Char)) (m : List Char),
      (editTrail m ds mid).countP ChatCall.isCreate = 0 := by
  intro ds
  induction ds with
  | nil => intro m; rfl
  | cons d tail ih =>
    intro m
    rw [editTrail]
    rw [List.countP_cons]
    simp [ChatCall.isCreate, ih]

theorem editTrail_getElem (mid : ℤ) :
    ∀ (ds : List (List Char)) (m : List Char) (k : ℕ), k < ds.length →
      (editTrail m ds mid)[k]? =
        some (.editMessage (m ++ (ds.take (k + 1)).flatten) mid) := by
  intro ds
  induction ds with
  | nil =>
    intro m k hk
    simp at hk
  | cons d tail ih =>
    intro m k hk
    match k with
    | 0 => simp [editTrail]
    | k + 1 =>
      rw [editTrail]
      rw [List.getElem?_cons_succ]
      rw [ih (m ++ d) k (by simpa using hk)]
      simp

theorem relayGeneratedText_tokens (platform : ℕ → Option ℤ) (editOK : ℕ → Bool)
    (messageID : ℤ) (st : AnswerStreamState) (d : List Char) :
    (relayGeneratedText platform editOK messageID st d).numTokensInput
        = st.numTokensInput ∧
    (relayGeneratedText platform editOK messageID st d).numTokensOutput
        = st.numTokensOutput := by
  rcases hf : st.firstMessageID with _ | mid
  · rw [relayGeneratedText_none hf]
    exact ⟨rfl, rfl⟩
  · rw [relayGeneratedText_some hf]
    exact ⟨rfl, rfl⟩

theorem finishReasonStage_tokens (platform : ℕ → Option ℤ) (editOK : ℕ → Bool)
    (messageID : ℤ) (st : AnswerStreamState) (data : StreamCallbackData) :
    (finishReasonStage platform editOK messageID st data).numTokensInput
        = st.numTokensInput ∧
    (finishReasonStage platform editOK messageID st data).numTokensOutput
        = st.numTokensOutput := by
  unfold finishReasonStage
  rcases hfr : data.finishReason with _ | fr
  · simp only [hfr]
    exact ⟨trivial, trivial⟩
  · simp only [hfr]
    split
    · exact relayGeneratedText_tokens ..
    · exact ⟨rfl, rfl⟩

theorem contentStage_tokens (platform : ℕ → Option ℤ) (editOK : ℕ → Bool)
    (messageID : ℤ) (st : AnswerStreamState) (data : StreamCallbackData) :
    (contentStage platform editOK messageID st data).numTokensInput
        = st.numTokensInput ∧
    (contentStage platform editOK messageID st data).numTokensOutput
        = st.numTokensOutput := by
  unfold contentStage
  rcases htd : data.textDelta with _ | d
  · rcases her : data.error with _ | e
    · simp only [htd, her]
      exact ⟨trivial, trivial⟩
    · simp only [htd, her]
      exact ⟨trivial, trivial⟩
  · simp only [htd]
    exact relayGeneratedText_tokens ..

theorem if_lt_eq_max (a b : ℕ) : (if a < b then b else a) = max a b := by
  rcases Nat.lt_or_ge a b with h | h
  · rw [if_pos h]
    exact (Nat.max_eq_right (le_of_lt h)).symm
  · rw [if_neg (Nat.not_lt.mpr h)]
    exact (Nat.max_eq_left h).symm

theorem streamCallback_tokens (platform : ℕ → Option ℤ) (editOK : ℕ → Bool)
    (messageID : ℤ) (st : AnswerStreamState) (data : StreamCallbackData) :
    (streamCallback platform editOK messageID st data).numTokensInput
        = (match data.numTokens with
           | some nt => max st.numTokensInput nt.input
           | none => st.numTokensInput) ∧
    (streamCallback platform editOK messageID st data).numTokensOutput
        = (match data.numTokens with
           | some nt => max st.numTokensOutput nt.output
           | none => st.numTokensOutput) := by
  unfold streamCallback tokenStage
  obtain ⟨hc1, hc2⟩ := contentStage_tokens platform editOK messageID
    (finishReasonStage platform editOK messageID st data) data
  obtain ⟨hf1, hf2⟩ := finishReasonStage_tokens platform editOK messageID st data
  rcases data.numTokens with _ | nt
  · exact ⟨by rw [hc1, hf1], by rw [hc2, hf2]⟩
  · constructor
    · show (if _ < nt.input then nt.input else _) = _
      rw [hc1, hf1, if_lt_eq_max]
    · show (if _ < nt.output then nt.output else _) = _
      rw [hc2, hf2, if_lt_eq_max]

theorem streamCallback_tokens_mono (platform : ℕ → Option ℤ) (editOK : ℕ → Bool)
    (messageID : ℤ) (st : AnswerStreamState) (data : StreamCallbackData) :
    st.numTokensInput
        ≤ (streamCallback platform editOK messageID st data).numTokensInput ∧
    st.numTokensOutput
        ≤ (streamCallback platform editOK messageID st data).numTokensOutput := by
  obtain ⟨h1, h2⟩ := streamCallback_tokens platform editOK messageID st data
  rw [h1, h2]
  rcases data.numTokens with _ | nt
  · exact ⟨le_rfl, le_rfl⟩
  · exact ⟨Nat.le_max_left .., Nat.le_max_left ..⟩

theorem foldl_streamCallback_tokens (platform : ℕ → Option ℤ)
    (editOK : ℕ → Bool) (messageID : ℤ) :
    ∀ (events : List StreamCallbackData) (st : AnswerStreamState),
      (events.foldl (streamCallback platform editOK messageID) st).numTokensInput
          = (events.filterMap (fun ev => ev.numTokens.map NumTokens.input)).foldl
              max st.numTokensInput ∧
      (events.foldl (streamCallback platform editOK messageID) st).numTokensOutput
          = (events.filterMap (fun ev => ev.numTokens.map NumTokens.output)).foldl
              max st.numTokensOutput := by
  intro events
  induction events with
  | nil => intro st; exact ⟨rfl, rfl⟩
  | cons e t ih =>
    intro st
    rw [List.foldl_cons]
    obtain ⟨ih1, ih2⟩ := ih (streamCallback platform editOK messageID st e)
    obtain ⟨hs1, hs2⟩ := streamCallback_tokens platform editOK messageID st e
    rcases hnt : e.numTokens with _ | nt
    · rw [hnt] at hs1 hs2
      constructor
      · rw [ih1, hs1]
        simp [List.filterMap_cons, hnt]
      · rw [ih2, hs2]
        simp [List.filterMap_cons, hnt]
    · rw [hnt] at hs1 hs2
      constructor
      · rw [ih1, hs1]
        simp [List.filterMap_cons, hnt]
      · rw [ih2, hs2]
        simp [List.filterMap_cons, hnt]

end TGBot

namespace TGBot

/-! ### Telegram updates, the allow-list, and the command handlers
(helpers.go `isAllowed` / `usableMessageFromUpdate`, handlers.go)

A `tg.Message` is embedded with the fields the claims need; `Has…`
accessors mirror the nil-checks of the client library (a photo is a slice
of sizes, the other media are nullable objects).  Media payloads are
download oracles from file id to bytes.  Outbound platform calls are
accumulated as `TGCall` traces; `sendMessage` issues a chat action and the
send itself. -/

structure TGMessage where
  messageID : ℤ
  chatID : ℤ
  fromUsername : Option (List Char)
  fromIsBot : Bool
  text : Option (List Char)
  caption : Option (List Char)
  photo : List (List Char)
  video : Option (List Char)
  videoNote : Option (List Char)
  audio : Option (List Char)
  voice : Option (List Char)
  document : Option (List Char)
  deriving DecidableEq

def TGMessage.hasText (m : TGMessage) : Bool := m.text.isSome
def TGMessage.hasCaption (m : TGMessage) : Bool := m.caption.isSome
def TGMessage.hasPhoto (m : TGMessage) : Bool := !m.photo.isEmpty
def TGMessage.hasVideo (m : TGMessage) : Bool := m.video.isSome
def TGMessage.hasVideoNote (m : TGMessage) : Bool := m.videoNote.isSome
def TGMessage.hasAudio (m : TGMessage) : Bool := m.audio.isSome
def TGMessage.hasVoice (m : TGMessage) : Bool := m.voice.isSome
def TGMessage.hasDocument (m : TGMessage) : Bool := m.document.isSome

/-- `tg.InlineQuery`, with the fields the bot reads: the query id it
answers to and the sender (`From.ID` and nullable `From.Username`). -/
structure TGInlineQuery where
  id : List Char
  fromID : ℤ
  fromUsername : Option (List Char)
  deriving DecidableEq

structure TGUpdate where
  message : Option TGMessage
  editedMessage : Option TGMessage
  inlineQuery : Option TGInlineQuery
  deriving DecidableEq

/-- `isAllowed` (helpers.go): extract a username from the update by the
message / edited-message / inline-query if-chain (empty when none carries
one) and test existence in the allowed-users map. -/
def isAllowed (update : TGUpdate) (allowedUsers : List (List Char)) : Bool :=
  let username :=
    match update.message.bind TGMessage.fromUsername with
    | some un => un
    | none =>
      match update.editedMessage.bind TGMessage.fromUsername with
      | some un => un
      | none =>
        match update.inlineQuery.bind TGInlineQuery.fromUsername with
        | some un => un
        | none => []
  allowedUsers.contains username

def messageUsable (m : TGMessage) : Bool :=
  m.hasText || m.hasPhoto || m.hasVideo || m.hasVideoNote || m.hasAudio ||
    m.hasVoice || m.hasDocument

/-- `usableMessageFromUpdate` (helpers.go). -/
def usableMessageFromUpdate (update : TGUpdate) : Option TGMessage :=
  match update.message with
  | some m =>
    if messageUsable m then some m
    else
      match update.editedMessage with
      | some m2 => if messageUsable m2 then some m2 else none
      | none => none
  | none =>
    match update.editedMessage with
    | some m2 => if messageUsable m2 then some m2 else none
    | none => none

/-- `tg.InlineQueryResultArticle` as built by `tg.NewInlineQueryResultArticle`
with a title, the text of the message sent when the article is chosen, and
a description. -/
structure InlineQueryResultArticle where
  title : List Char
  messageText : List Char
  description : List Char
  deriving DecidableEq

inductive TGCall where
  | sendChatAction (chatID : ℤ)
  | sendMessage (chatID : ℤ) (text : List Char) (replyTo : Option ℤ)
  | answerInlineQuery (queryID : List Char) (results : List InlineQueryResultArticle)
  deriving DecidableEq

/-- `sendMessage` (bot.go / messages.go): one `SendChatAction` followed by
one `SendMessage`, with an optional reply-to id. -/
def sendMessageCalls (message : List Char) (chatID : ℤ)
    (messageID : Option ℤ) : List TGCall :=
  [.sendChatAction chatID, .sendMessage chatID message messageID]

def msgStart : List Char :=
  "This bot will answer your messages with Gemini API :-)".toList

def msgPrivacy : List Char :=
  ("Privacy Policy:\n\n" ++
    "https://github.com/meinside/telegram-gemini-bot/raw/master/PRIVACY.md").toList

def msgCmdNotSupported (cmd : List Char) : List Char :=
  "Not a supported bot command: ".toList ++ cmd

/-- `/start` handler (handlers.go): refuse disallowed users, then answer
`msgStart` without a reply-to. -/
def startCommandHandler (allowedUsers : List (List Char))
    (update : TGUpdate) : List TGCall :=
  if isAllowed update allowedUsers then
    match usableMessageFromUpdate update with
    | none => []
    | some m => sendMessageCalls msgStart m.chatID none
  else []

/-- `/stats` handler (handlers.go); the stats text retrieved from the
database is a parameter. -/
def statsCommandHandler (statsText : List Char)
    (allowedUsers : List (List Char)) (update : TGUpdate) : List TGCall :=
  if isAllowed update allowedUsers then
    match usableMessageFromUpdate update with
    | none => []
    | some m => sendMessageCalls statsText m.chatID (some m.messageID)
  else []

/-- `/help` handler (handlers.go); the generated help text is a
parameter. -/
def helpCommandHandler (helpText : List Char)
    (allowedUsers : List (List Char)) (update : TGUpdate) : List TGCall :=
  if isAllowed update allowedUsers then
    match usableMessageFromUpdate update with
    | none => []
    | some m => sendMessageCalls helpText m.chatID (some m.messageID)
  else []

/-- No-such-command handler (handlers.go). -/
def noSuchCommandHandler (allowedUsers : List (List Char)) (cmd : List Char)
    (update : TGUpdate) : List TGCall :=
  if isAllowed update allowedUsers then
    match usableMessageFromUpdate update with
    | none => []
    | some m => sendMessageCalls (msgCmdNotSupported cmd) m.chatID (some m.messageID)
  else []

/-- `/privacy` handler (handlers.go lines 93–106): note there is no
`isAllowed` check — the privacy policy is sent to any update with a usable
message. -/
def privacyCommandHandler (update : TGUpdate) : List TGCall :=
  match usableMessageFromUpdate update with
  | none => []
  | some m => sendMessageCalls msgPrivacy m.chatID (some m.messageID)

/-- The `SetMessageHandler` callback registered in `runBot` (bot.go): if the
update fails `isAllowed` it only logs and returns; otherwise it runs
`handleMessages` on the single update, whose outbound calls are abstracted
as the parameter `handleMessagesCalls`. -/
def messageHandler (handleMessagesCalls : List TGCall)
    (allowedUsers : List (List Char)) (update : TGUpdate) : List TGCall :=
  if isAllowed update allowedUsers then handleMessagesCalls else []

/-- The `SetMediaGroupHandler` callback registered in `runBot` (bot.go): it
loops over the grouped updates and returns at the first one failing
`isAllowed`; only when every update passes does it run `handleMessages`,
abstracted as `handleMessagesCalls`. -/
def mediaGroupHandler (handleMessagesCalls : List TGCall)
    (allowedUsers : List (List Char)) (updates : List TGUpdate) : List TGCall :=
  if updates.all (fun u => isAllowed u allowedUsers) then handleMessagesCalls
  else []

def msgTypeNotSupported : List Char := "Not a supported message type.".toList

/-- The `StartPollingUpdates` fallback callback in `runBot` (bot.go), for
updates no other handler consumed: disallowed updates are dropped, allowed
ones with a usable message get the `msgTypeNotSupported` reply. -/
def pollUpdateHandler (allowedUsers : List (List Char))
    (update : TGUpdate) : List TGCall :=
  if isAllowed update allowedUsers then
    match usableMessageFromUpdate update with
    | some m => sendMessageCalls msgTypeNotSupported m.chatID (some m.messageID)
    | none => []
  else []

/-- One row of `retrieveSuccessfulPrompts` (database.go): a `Prompt` with
its `Generated` result — texts and token counts. -/
structure SavedPrompt where
  text : List Char
  tokens : ℕ
  resultText : List Char
  resultTokens : ℕ
  deriving DecidableEq

/-- Insert a comma after every third character, counting from the front —
helper working on the reversed digit string. -/
def commaGroupRev : List Char → List Char
  | a :: b :: c :: d :: rest => a :: b :: c :: ',' :: commaGroupRev (d :: rest)
  | ds => ds

/-- `printer.Sprintf "%d"` with the English locale: the decimal digits of
`n` grouped in threes by commas. -/
def commaGrouped (n : ℕ) : List Char :=
  (commaGroupRev (toString n).toList.reverse).reverse

def noResultText : List Char :=
  "There was no successful prompt for this user.".toList

/-- The `SetInlineQueryHandler` callback registered in `runBot`
(bot.go 1432–1468).  It performs no `isAllowed` check: it loads the
successful prompts of the query's sender (the database read is the oracle
`successfulPrompts`), turns each into an article — description
`Tokens: input …, output: …` with comma-grouped counts — or a single
`No result` article when there are none, and unconditionally answers the
inline query with them. -/
def inlineQueryHandler (successfulPrompts : ℤ → List SavedPrompt)
    (inlineQuery : TGInlineQuery) : List TGCall :=
  let prompts := successfulPrompts inlineQuery.fromID
  let results :=
    if prompts.length > 0 then
      prompts.map (fun p =>
        InlineQueryResultArticle.mk p.text p.resultText
          ("Tokens: input ".toList ++ commaGrouped p.tokens ++
            ", output: ".toList ++ commaGrouped p.resultTokens))
    else
      [InlineQueryResultArticle.mk "No result".toList noResultText noResultText]
  [.answerInlineQuery inlineQuery.id results]

end TGBot

namespace TGBot

/-! ### `convertMessage` / `filesFromMessage` (handlers.go)

`download` is the oracle for `readMedia` (file id to bytes, `none` on
failure). -/

def RoleModel : List Char := "model".toList
def RoleUser : List Char := "user".toList

structure chatMessage where
  role : List Char
  text : List Char
  files : List (List ℕ)
  deriving DecidableEq

def defaultPromptForMedias : List Char := "Describe provided media(s).".toList

/-- The photo loop of `filesFromMessage`: read every photo size, aborting
on the first failure. -/
def photosFromMessage (download : List Char → Option (List ℕ)) :
    List (List Char) → Except (List Char) (List (List ℕ))
  | [] => .ok []
  | fid :: rest =>
    match download fid with
    | some bytes =>
      match photosFromMessage download rest with
      | .ok files => .ok (bytes :: files)
      | .error e => .error e
    | none => .error "failed to read photo content".toList

def mediaFile (download : List Char → Option (List ℕ))
    (fid : Option (List Char)) (errMsg : List Char) :
    Except (List Char) (List (List ℕ)) :=
  match fid with
  | some f =>
    match download f with
    | some bytes => .ok [bytes]
    | none => .error errMsg
  | none => .error errMsg

/-- `filesFromMessage` (handlers.go): extract the bytes of whichever media
the message carries; a message with no media yields no files and no
error. -/
def filesFromMessage (download : List Char → Option (List ℕ))
    (m : TGMessage) : Except (List Char) (List (List ℕ)) :=
  if m.hasPhoto then
    photosFromMessage download m.photo
  else if m.hasVideo then
    mediaFile download m.video "failed to read video content".toList
  else if m.hasVideoNote then
    mediaFile download m.videoNote "failed to read video note content".toList
  else if m.hasAudio then
    mediaFile download m.audio "failed to read audio content".toList
  else if m.hasVoice then
    mediaFile download m.voice "failed to read voice content".toList
  else if m.hasDocument then
    mediaFile download m.document "failed to read document content".toList
  else .ok []

def allFilesFromMessages (download : List Char → Option (List ℕ)) :
    List TGMessage → Except (List Char) (List (List ℕ))
  | [] => .ok []
  | msg :: rest =>
    match filesFromMessage download msg with
    | .ok files =>
      match allFilesFromMessages download rest with
      | .ok more => .ok (files ++ more)
      | .error e => .error e
    | .error e => .error e

/-- `convertMessage` (handlers.go lines 159–201): a text message becomes a
text-only chat message; a media message uses the caption or the default
placeholder plus the downloaded bytes of the message and its grouped
siblings; anything else fails. -/
def convertMessage (download : List Char → Option (List ℕ)) (m : TGMessage)
    (otherGroupedMessages : List TGMessage) :
    Except (List Char) chatMessage :=
  let role := if m.fromIsBot then RoleModel else RoleUser
  if m.hasText then
    .ok { role := role, text := m.text.getD [], files := [] }
  else if m.hasPhoto || m.hasVideo || m.hasVideoNote || m.hasAudio ||
      m.hasVoice || m.hasDocument then
    let text :=
      match m.caption with
      | some c => c
      | none => defaultPromptForMedias
    match allFilesFromMessages download (m :: otherGroupedMessages) with
    | .ok allFiles => .ok { role := role, text := text, files := allFiles }
    | .error e => .error e
  else
    .error "failed to convert message: not a supported type".toList

end TGBot

namespace TGBot

/-! ### The generation-error branch of the non-streamed `answer` (bot.go)

When `model.GenerateContent` returns an error (bot.go lines 639–646), the
code sends one chat-visible message interpolating the raw error and calls
`savePromptAndResult` once with zero token counts, `err.Error()` as the
result text, and `false` for success.  `PromptRecord` carries the
arguments of `savePromptAndResult` (database.go). -/

structure PromptRecord where
  chatID : ℤ
  userID : ℤ
  username : List Char
  promptText : List Char
  promptTokens : ℕ
  resultText : List Char
  resultTokens : ℕ
  successful : Bool
  deriving DecidableEq

def msgGenerationFailedPrefix : List Char :=
  "Failed to generate an answer from Gemini: ".toList

/-- The `else` branch of the non-streamed `answer` (bot.go): one
`sendMessage` with the raw error text, one `savePromptAndResult` with
`success=false`, both token counts zero, and the raw error text as
result. -/
def answerOnGenerationError (chatID userID : ℤ)
    (username promptText : List Char) (messageID : ℤ)
    (errText : List Char) : List TGCall × List PromptRecord :=
  (sendMessageCalls (msgGenerationFailedPrefix ++ errText) chatID (some messageID),
   [{ chatID := chatID, userID := userID, username := username,
      promptText := promptText, promptTokens := 0, resultText := errText,
      resultTokens := 0, successful := false }])

end TGBot

namespace TGBot

/-! ### `convertPromptWithURLs` / `isURLFromYoutube` (helpers.go, current
revision, lines 436–484)

The regex match list (`re.FindAllString(prompt, -1)`) is an oracle
parameter `urls`; `gt.Prompt` is embedded with the two variants this
function produces (`PromptFromText`, `PromptFromURI`). -/

inductive Prompt where
  | text (t : List Char)
  | fileURI (uri : List Char) (mimeType : List Char)
  deriving DecidableEq

/-- `isURLFromYoutube`: substring containment of one of the two known
video-hosting host strings. -/
def isURLFromYoutube (url : List Char) : Bool :=
  ["www.youtube.com".toList, "youtu.be".toList].any
    (fun e => goContains url e)

/-- The loop body of `convertPromptWithURLs`: cut `remaining` at each
successive match; a YouTube URL becomes a `FileURI` prompt (with any text
before it as its own fragment), any other URL is kept in place; text after
the last match is appended at the end. -/
def convertPromptWithURLsLoop (converted : List Prompt)
    (remaining : List Char) : List (List Char) → List Prompt
  | [] =>
    if remaining.length > 0 then converted ++ [.text remaining] else converted
  | url :: rest =>
    match goCut remaining url with
    | (before, after, true) =>
      if isURLFromYoutube url then
        let converted :=
          if before.length > 0 then converted ++ [.text before] else converted
        convertPromptWithURLsLoop
          (converted ++ [.fileURI url "video/mp4".toList]) after rest
      else
        convertPromptWithURLsLoop
          (converted ++ [.text (before ++ url)]) after rest
    | (_, _, false) => convertPromptWithURLsLoop converted remaining rest

/-- `convertPromptWithURLs` (helpers.go, current revision): `urls` is the
list of regex matches found in `prompt`. -/
def convertPromptWithURLs (urls : List (List Char)) (prompt : List Char) :
    List Prompt :=
  convertPromptWithURLsLoop [] prompt urls

/-- Concatenation of the fragments: the text of `Text` fragments and the
URI of `FileURI` fragments, in order. -/
def promptFragmentsConcat : List Prompt → List Char
  | [] => []
  | .text t :: rest => t ++ promptFragmentsConcat rest
  | .fileURI u _ :: rest => u ++ promptFragmentsConcat rest

end TGBot

namespace TGBot

/-! ### `convertPromptWithURLs` lemmas -/

theorem promptFragmentsConcat_append (a b : List Prompt) :
    promptFragmentsConcat (a ++ b)
      = promptFragmentsConcat a ++ promptFragmentsConcat b := by
  induction a with
  | nil => rfl
  | cons p rest ih =>
    rcases p with t | ⟨u, m⟩ <;>
      simp [promptFragmentsConcat, ih]

theorem convertPromptWithURLsLoop_spec :
    ∀ (urls : List (List Char)) (converted : List Prompt)
      (remaining : List Char),
      promptFragmentsConcat (convertPromptWithURLsLoop converted remaining urls)
          = promptFragmentsConcat converted ++ remaining ∧
      ∀ u m, Prompt.fileURI u m ∈ convertPromptWithURLsLoop converted remaining urls →
        Prompt.fileURI u m ∈ converted ∨
          (u ∈ urls ∧ isURLFromYoutube u = true ∧ m = "video/mp4".toList) := by
  intro urls
  induction urls with
  | nil =>
    intro converted remaining
    constructor
    · by_cases h : remaining.length > 0
      · rw [convertPromptWithURLsLoop, if_pos h, promptFragmentsConcat_append]
        simp [promptFragmentsConcat]
      · have : remaining = [] := by
          simpa using h
        subst this
        rw [convertPromptWithURLsLoop]
        simp
    · intro u m hmem
      rw [convertPromptWithURLsLoop] at hmem
      split at hmem
      · rcases List.mem_append.mp hmem with h | h
        · exact Or.inl h
        · simp at h
      · exact Or.inl hmem
  | cons url rest ih =>
    intro converted remaining
    rcases hcut : goCut remaining url with ⟨before, after, found⟩
    have hloop :
        convertPromptWithURLsLoop converted remaining (url :: rest)
          = if found then
              (if isURLFromYoutube url then
                convertPromptWithURLsLoop
                  ((if before.length > 0 then converted ++ [.text before]
                    else converted) ++ [.fileURI url "video/mp4".toList])
                  after rest
              else
                convertPromptWithURLsLoop
                  (converted ++ [.text (before ++ url)]) after rest)
            else convertPromptWithURLsLoop converted remaining rest := by
      rw [convertPromptWithURLsLoop, hcut]
      cases found
      · rfl
      · rfl
    rcases hfound : found with _ | _
    · rw [hfound] at hloop
      simp only [Bool.false_eq_true, if_false] at hloop
      rw [hloop]
      obtain ⟨ih1, ih2⟩ := ih converted remaining
      refine ⟨ih1, fun u m hmem => ?_⟩
      rcases ih2 u m hmem with h | ⟨h1, h2, h3⟩
      · exact Or.inl h
      · exact Or.inr ⟨by simp [h1], h2, h3⟩
    · rw [hfound] at hloop
      simp only [if_true] at hloop
      -- `found = true` means the cut split `remaining` around `url`
      have hsplit : remaining = before ++ url ++ after := by
        unfold goCut at hcut
        rcases hm : firstMatch remaining url with _ | ⟨a, b⟩
        · rw [hm] at hcut
          simp at hcut
          obtain ⟨-, -, hff⟩ := hcut
          rw [hff] at hfound
          exact absurd hfound (by simp)
        · rw [hm] at hcut
          simp at hcut
          obtain ⟨e1, e2, -⟩ := hcut
          subst e1
          subst e2
          exact firstMatch_eq_append hm
      rw [hloop]
      by_cases hyt : isURLFromYoutube url = true
      · rw [if_pos hyt]
        set conv2 : List Prompt :=
          (if before.length > 0 then converted ++ [.text before] else converted)
            ++ [.fileURI url "video/mp4".toList] with hconv2
        obtain ⟨ih1, ih2⟩ := ih conv2 after
        have hc2 : promptFragmentsConcat conv2
            = promptFragmentsConcat converted ++ before ++ url := by
          rw [hconv2]
          by_cases hb : before.length > 0
          · rw [if_pos hb, promptFragmentsConcat_append,
              promptFragmentsConcat_append]
            simp [promptFragmentsConcat]
          · have : before = [] := by simpa using hb
            subst this
            rw [if_neg hb, promptFragmentsConcat_append]
            simp [promptFragmentsConcat]
        constructor
        · rw [ih1, hc2, hsplit]
          simp
        · intro u m hmem
          rcases ih2 u m hmem with h | ⟨h1, h2, h3⟩
          · rw [hconv2] at h
            rcases List.mem_append.mp h with h' | h'
            · split at h'
              · rcases List.mem_append.mp h' with h'' | h''
                · exact Or.inl h''
                · simp at h''
              · exact Or.inl h'
            · simp at h'
              obtain ⟨rfl, rfl⟩ := h'
              exact Or.inr ⟨by simp, hyt, rfl⟩
          · exact Or.inr ⟨by simp [h1], h2, h3⟩
      · rw [if_neg hyt]
        obtain ⟨ih1, ih2⟩ := ih (converted ++ [.text (before ++ url)]) after
        constructor
        · rw [ih1, promptFragmentsConcat_append, hsplit]
          simp [promptFragmentsConcat]
        · intro u m hmem
          rcases ih2 u m hmem with h | ⟨h1, h2, h3⟩
          · rcases List.mem_append.mp h with h' | h'
            · exact Or.inl h'
            · simp at h'
          · exact Or.inr ⟨by simp [h1], h2, h3⟩

end TGBot

namespace TGBot

/-! ### `convertPromptWithURLs` / `fetchURLContent` (helpers.go, the
`conf`-taking revision, lines 937–1018)

This revision fetches each matched URL and replaces the match in place:
a supported HTTP content type is replaced by the fetched text wrapped in
`urlToTextFormat`, a supported file mime type by
`urlReplacedWithFileAttachmentFormat` with the bytes appended to the
files.  The network is the oracle `net` (`unreachable` = `client.Do`
error); goquery's `doc.Text()` extraction is the oracle `htmlText`; the
regex matches are again the parameter `urls`. -/

inductive FetchOutcome where
  | unreachable
  | response (status : ℕ) (contentType : List Char) (body : List Char)
  deriving DecidableEq

def supportedHTTPContentType (contentType : List Char) : Bool :=
  "text/".toList.isPrefixOf contentType ||
    "application/json".toList.isPrefixOf contentType

def supportedFileMimeType (mimeType : List Char) : Bool :=
  (["image/png", "image/jpeg", "image/webp", "image/heic",
    "image/heif"].map String.toList).contains mimeType ||
  (["audio/wav", "audio/mp3", "audio/aiff", "audio/aac", "audio/ogg",
    "audio/flac"].map String.toList).contains mimeType ||
  (["video/mp4", "video/mpeg", "video/mov", "video/avi", "video/x-flv",
    "video/mpg", "video/webm", "video/wmv",
    "video/3gpp"].map String.toList).contains mimeType ||
  (["text/plain", "text/html", "text/css", "text/javascript",
    "application/x-javascript", "text/x-typescript",
    "application/x-typescript", "text/csv", "text/markdown",
    "text/x-python", "application/x-python-code", "application/json",
    "text/xml", "application/rtf", "text/rtf",
    "application/pdf"].map String.toList).contains mimeType

/-- `strings.TrimRight(line, " ")`. -/
def trimRightSpaces (l : List Char) : List Char :=
  (l.reverse.dropWhile (fun c => c = ' ')).reverse

/-- The `\n{2,} → \n` regexp replacement: squeeze every run of newlines
down to one. -/
def collapseNewlineRuns : List Char → List Char
  | [] => []
  | [c] => [c]
  | c1 :: c2 :: rest =>
    if c1 = '\n' && c2 = '\n' then collapseNewlineRuns (c2 :: rest)
    else c1 :: collapseNewlineRuns (c2 :: rest)

/-- `removeConsecutiveEmptyLines` (helpers.go): trim each line's trailing
spaces, rejoin, and collapse runs of newlines. -/
def removeConsecutiveEmptyLines (input : List Char) : List Char :=
  collapseNewlineRuns
    (List.intercalate ['\n'] ((input.splitOn '\n').map trimRightSpaces))

def squote : Char := Char.ofNat 39

/-- The `urlToTextFormat` constant applied to its three arguments. -/
def urlToTextFormat (url contentType body : List Char) : List Char :=
  "<link url=\"".toList ++ url ++ "\" content-type=\"".toList ++
    contentType ++ "\">\n".toList ++ body ++ "\n</link>".toList

/-- The `urlReplacedWithFileAttachmentFormat` constant applied to its two
arguments. -/
def urlReplacedWithFileAttachmentFormat (url contentType : List Char) :
    List Char :=
  "<file fetched-from=\"".toList ++ url ++ "\" content-type=\"".toList ++
    contentType ++
    "\">This element was replaced with the file fetched from ".toList ++
    [squote] ++ url ++ [squote] ++
    ", and is attached to the prompt as a file.</file>".toList

/-- `fetchURLContent` (helpers.go): returns `(content, contentType,
errIsNil)`; only a 200 response of a supported HTTP content type or a
supported file mime type yields a nil error.  Read errors of the response
body are not modelled (reads succeed). -/
def fetchURLContent (htmlText : List Char → List Char)
    (net : List Char → FetchOutcome) (url : List Char) :
    List Char × List Char × Bool :=
  match net url with
  | .unreachable => ([], [], false)
  | .response status contentType body =>
    if status = 200 then
      if supportedHTTPContentType contentType then
        if "text/html".toList.isPrefixOf contentType then
          (urlToTextFormat url contentType
            (removeConsecutiveEmptyLines (htmlText body)), contentType, true)
        else if "text/".toList.isPrefixOf contentType then
          (urlToTextFormat url contentType
            (removeConsecutiveEmptyLines body), contentType, true)
        else
          -- application/json: neither inner branch assigns content
          ([], contentType, true)
      else if supportedFileMimeType contentType then
        (body, contentType, true)
      else
        (urlToTextFormat url contentType
          ("Content type: ".toList ++ contentType ++ " not supported.".toList),
         contentType, false)
    else
      (urlToTextFormat url contentType
        ("HTTP Error ".toList ++ (toString status).toList), contentType, false)

/-- One iteration of the `convertPromptWithURLs` loop of this revision. -/
def convertPromptURLStep (htmlText : List Char → List Char)
    (net : List Char → FetchOutcome) (pf : List Char × List (List Char))
    (url : List Char) : List Char × List (List Char) :=
  let fetched := fetchURLContent htmlText net url
  let content := fetched.1
  let contentType := fetched.2.1
  let errIsNil := fetched.2.2
  if errIsNil then
    if supportedHTTPContentType contentType then
      (goReplaceOnce pf.1 url (content ++ ['\n']), pf.2)
    else if supportedFileMimeType contentType then
      (goReplaceOnce pf.1 url (urlReplacedWithFileAttachmentFormat url contentType),
       pf.2 ++ [content])
    else pf
  else pf

/-- `convertPromptWithURLs` of the `conf`-taking revision: fold the
replacement step over the regex matches, accumulating attached files. -/
def convertPromptWithURLsFetching (htmlText : List Char → List Char)
    (net : List Char → FetchOutcome) (urls : List (List Char))
    (prompt : List Char) : List Char × List (List Char) :=
  urls.foldl (convertPromptURLStep htmlText net) (prompt, [])

end TGBot

namespace TGBot

/-! ## Claim theorems -/

/-- C5 counterexample: with API key `"ED"` and bot token `"X"`, redacting
the error text `"X"` yields `"<REDACTED>"`, which contains the API key
`"ED"` as a substring — so the claim that the redacted string never
contains either secret fails for these (non-empty) secrets. -/
theorem redact_embeds_secret_counterexample :
    "ED".toList ≠ [] ∧ "X".toList ≠ [] ∧
      "ED".toList <:+: redact "ED".toList "X".toList "X".toList := by
  refine ⟨by decide, by decide, ?_⟩
  have h : redact "ED".toList "X".toList "X".toList = "<REDACTED>".toList := by
    decide
  rw [h]
  decide

/-- C5 (amended): for every error text and non-empty secrets that share no
character with the replacement marker `<REDACTED>`, the redacted string
contains neither the Google AI API key nor the Telegram bot token as a
substring. -/
theorem redact_removes_secrets (key token err : List Char)
    (hkey : key ≠ []) (htoken : token ≠ [])
    (hk : ∀ c ∈ key, c ∉ redactedString) (ht : ∀ c ∈ token, c ∉ redactedString) :
    ¬ key <:+: redact key token err ∧ ¬ token <:+: redact key token err := by
  have hmarker : redactedString ≠ [] := by decide
  unfold redact
  set r1 := if goContains err key then goReplaceAll err key redactedString else err
    with hr1
  have h1 : ¬ key <:+: r1 := by
    rw [hr1]
    rcases hc : goContains err key with _ | _
    · simp only [Bool.false_eq_true, if_false]
      exact goContains_eq_false hc
    · simp only [if_true]
      exact goReplaceAll_no_occurrence hkey hmarker hk err.length err le_rfl
  rcases hc2 : goContains r1 token with _ | _
  · simp only [hc2, Bool.false_eq_true, if_false]
    exact ⟨h1, goContains_eq_false hc2⟩
  · simp only [hc2, if_true]
    constructor
    · exact goReplaceAll_preserves_no_occurrence htoken hmarker hk r1.length r1 le_rfl h1
    · exact goReplaceAll_no_occurrence htoken hmarker ht r1.length r1 le_rfl

/-- Witness for `redact_removes_secrets` at concrete inputs. -/
theorem redact_removes_secrets_witness :
    ¬ "k1".toList <:+: redact "k1".toList "t2".toList "oops k1 t2".toList ∧
      ¬ "t2".toList <:+: redact "k1".toList "t2".toList "oops k1 t2".toList :=
  redact_removes_secrets "k1".toList "t2".toList "oops k1 t2".toList
    (by decide) (by decide) (by decide) (by decide)

/-- C6 counterexample: for sample rate `2^32` the 32-bit `SampleRate`
header field wraps to 0, so it does not equal the input parameter. -/
theorem pcmToWav_sampleRate_field_wraps :
    decodeU32le (((pcmToWav [] (2 ^ 32) 16 1).drop 24).take 4) ≠ 2 ^ 32 := by
  decide

/-- C6 (amended): whenever the parameters fit their header fields (sample
rate and byte rate below `2^32`, channel count, block align and bit depth
below `2^16`, data below `2^32 - 36` bytes), the WAV output of `pcmToWav`
has `ChunkSize = 36 + |pcm|`, `SampleRate`, `BitsPerSample`, `NumChannels`
exactly the inputs, `ByteRate = sampleRate*numChannels*bitDepth/8`,
`BlockAlign = numChannels*bitDepth/8`, and its data section (bytes from
offset 44 on) is exactly the input PCM buffer. -/
theorem pcmToWav_header_correct (pcm : List ℕ) (sampleRate bitDepth numChannels : ℕ)
    (hlen : 36 + pcm.length < 2 ^ 32) (hsr : sampleRate < 2 ^ 32)
    (hbr : sampleRate * numChannels * bitDepth / 8 < 2 ^ 32)
    (hba : numChannels * bitDepth / 8 < 2 ^ 16)
    (hbd : bitDepth < 2 ^ 16) (hch : numChannels < 2 ^ 16) :
    decodeU32le (((pcmToWav pcm sampleRate bitDepth numChannels).drop 4).take 4)
        = 36 + pcm.length ∧
    decodeU32le (((pcmToWav pcm sampleRate bitDepth numChannels).drop 24).take 4)
        = sampleRate ∧
    decodeU16le (((pcmToWav pcm sampleRate bitDepth numChannels).drop 34).take 2)
        = bitDepth ∧
    decodeU32le (((pcmToWav pcm sampleRate bitDepth numChannels).drop 28).take 4)
        = sampleRate * numChannels * bitDepth / 8 ∧
    decodeU16le (((pcmToWav pcm sampleRate bitDepth numChannels).drop 32).take 2)
        = numChannels * bitDepth / 8 ∧
    decodeU16le (((pcmToWav pcm sampleRate bitDepth numChannels).drop 22).take 2)
        = numChannels ∧
    (pcmToWav pcm sampleRate bitDepth numChannels).drop 44 = pcm := by
  have hmod : pcm.length % 2 ^ 32 = pcm.length := Nat.mod_eq_of_lt (by omega)
  refine ⟨?_, ?_, ?_, ?_, ?_, ?_, ?_⟩ <;>
    simp only [pcmToWav, u32le, u16le, List.cons_append, List.nil_append,
      List.drop_succ_cons, List.drop_zero, List.take_succ_cons, List.take_zero,
      decodeU32le, decodeU16le, hmod] <;>
    omega

/-- Witness for `pcmToWav_header_correct` at concrete inputs: 4 bytes of
silence at 24000 Hz, 16-bit, mono. -/
theorem pcmToWav_header_correct_witness :
    decodeU32le (((pcmToWav [0, 0, 0, 0] 24000 16 1).drop 4).take 4) = 40 ∧
      decodeU32le (((pcmToWav [0, 0, 0, 0] 24000 16 1).drop 24).take 4) = 24000 := by
  have h := pcmToWav_header_correct [0, 0, 0, 0] 24000 16 1
    (by decide) (by decide) (by decide) (by decide) (by decide) (by decide)
  exact ⟨h.1, h.2.1⟩

/-- C4 (confirmed): for every well-formed (valid UTF-8) non-streamed
generated text longer than 4096 characters, the relay sends the full text
as a document attachment (not a text message), and the caption is a prefix
of the generated text of at most 128 bytes — hence at most 128
characters — followed by the ellipsis marker `"..."`. -/
theorem answer_oversized_text_as_document (t : List ℕ)
    (hv : validUTF8 t = true) (hcc : 4096 < charCount t) :
    relayFinalText t
      = RelayDecision.asDocument t (toValidUTF8 (t.take 128) ++ ellipsisBytes) ∧
    ∃ p, toValidUTF8 (t.take 128) = p ∧ p <+: t ∧ p.length ≤ 128 ∧
      charCount p ≤ 128 := by
  have hlen : 4096 < t.length :=
    lt_of_lt_of_le hcc (charCount_le_length t.length t le_rfl)
  constructor
  · unfold relayFinalText
    rw [if_pos hlen]
  · obtain ⟨h1, h2, _⟩ := toValidUTF8_take_prefix t.length t le_rfl hv 128
    exact ⟨_, rfl, h1, h2,
      le_trans (charCount_le_length _ _ le_rfl) h2⟩

/-- Witness for `answer_oversized_text_as_document`: 5000 bytes of ASCII
`"A"`. -/
theorem answer_oversized_text_as_document_witness :
    relayFinalText (List.replicate 5000 65)
      = RelayDecision.asDocument (List.replicate 5000 65)
          (toValidUTF8 ((List.replicate 5000 65).take 128) ++ ellipsisBytes) ∧
    ∃ p, toValidUTF8 ((List.replicate 5000 65).take 128) = p ∧
      p <+: List.replicate 5000 65 ∧ p.length ≤ 128 ∧ charCount p ≤ 128 := by
  have hascii : ∀ b ∈ List.replicate 5000 65, b < 0x80 := by
    intro b hb
    rw [List.eq_of_mem_replicate hb]
    norm_num
  refine answer_oversized_text_as_document _ (validUTF8_ascii _ hascii) ?_
  rw [charCount_ascii _ hascii, List.length_replicate]
  omega

/-- C1 (confirmed): for every finite stream of non-empty text-delta events
with the platform accepting every send, the streaming `answer` issues
exactly one create-message call, first in the trace, carrying the first
delta (= the first non-empty accumulated content); every later event
issues exactly one edit-message call carrying the full cumulative buffer;
hence no edit is issued before the create. -/
theorem streaming_accumulation (platform : ℕ → Option ℤ) (editOK : ℕ → Bool)
    (messageID : ℤ) (deltas : List (List Char))
    (hplat : ∀ n, platform n ≠ none)
    (hne : deltas ≠ []) (hnonempty : ∀ d ∈ deltas, d ≠ []) :
    (runAnswerStream platform editOK messageID
        (deltas.map textEvent)).calls.length = deltas.length ∧
    (runAnswerStream platform editOK messageID
        (deltas.map textEvent)).calls.countP ChatCall.isCreate = 1 ∧
    (runAnswerStream platform editOK messageID
        (deltas.map textEvent)).calls.head?
      = some (.createMessage (deltas.head hne) messageID) ∧
    (∀ k, 0 < k → k < deltas.length → ∃ mid, platform 0 = some mid ∧
      (runAnswerStream platform editOK messageID
          (deltas.map textEvent)).calls[k]?
        = some (.editMessage ((deltas.take (k + 1)).flatten) mid)) ∧
    (runAnswerStream platform editOK messageID
        (deltas.map textEvent)).mergedText = deltas.flatten := by
  match deltas, hne with
  | d :: ds, _ =>
    obtain ⟨mid, hmid⟩ : ∃ mid, platform 0 = some mid := by
      rcases hp : platform 0 with _ | m
      · exact absurd hp (hplat 0)
      · exact ⟨m, rfl⟩
    unfold runAnswerStream
    rw [List.map_cons, List.foldl_cons, streamCallback_textEvent,
      relayGeneratedText_none (rfl : initAnswerStreamState.firstMessageID = none)]
    set st1 : AnswerStreamState :=
      { initAnswerStreamState with
        mergedText := initAnswerStreamState.mergedText ++ d
        calls := initAnswerStreamState.calls ++ [.createMessage d messageID]
        sendAttempts := initAnswerStreamState.sendAttempts + 1
        firstMessageID := platform initAnswerStreamState.sendAttempts
        errs := initAnswerStreamState.errs +
          (match platform initAnswerStreamState.sendAttempts with
           | some _ => 0 | none => 1) }
      with hst1
    have hfid : st1.firstMessageID = some mid := by
      rw [hst1]
      exact hmid
    obtain ⟨h1, h2, _⟩ :=
      runFrom_textEvents_some platform editOK messageID ds st1 mid hfid
    have hcalls1 : st1.calls = [.createMessage d messageID] := rfl
    have hmerged1 : st1.mergedText = d := by
      rw [hst1]
      show initAnswerStreamState.mergedText ++ d = d
      rfl
    rw [hcalls1, hmerged1] at h1
    rw [hmerged1] at h2
    refine ⟨?_, ?_, ?_, ?_, ?_⟩
    · rw [h1]
      simp [editTrail_length]
    · rw [h1]
      rw [List.countP_append, List.countP_cons]
      simp [ChatCall.isCreate, editTrail_no_create]
    · rw [h1]
      rfl
    · intro k hk0 hklen
      refine ⟨mid, hmid, ?_⟩
      rw [h1, List.singleton_append]
      obtain ⟨j, rfl⟩ : ∃ j, k = j + 1 := ⟨k - 1, by omega⟩
      rw [show ((ChatCall.createMessage d messageID :: editTrail d ds mid)[j + 1]?)
          = (editTrail d ds mid)[j]? from List.getElem?_cons_succ ..]
      rw [editTrail_getElem mid ds d j (by simpa using hklen)]
      simp
    · rw [h2]
      simp

/-- Witness for `streaming_accumulation`: the deltas `["a","b","c"]` with a
platform returning message id `100 + n` for the `n`-th send. -/
theorem streaming_accumulation_witness :
    (runAnswerStream (fun n => some ((100 : ℤ) + n)) (fun _ => true) 7
        (["a".toList, "b".toList, "c".toList].map textEvent)).calls.countP
        ChatCall.isCreate = 1 ∧
    (runAnswerStream (fun n => some ((100 : ℤ) + n)) (fun _ => true) 7
        (["a".toList, "b".toList, "c".toList].map textEvent)).mergedText
      = "abc".toList := by
  have h := streaming_accumulation (fun n => some ((100 : ℤ) + n)) (fun _ => true)
    7 ["a".toList, "b".toList, "c".toList]
    (fun n => by simp) (by simp) (by decide)
  exact ⟨h.2.1, by rw [h.2.2.2.2]; rfl⟩

/-- C9 (confirmed): during one streaming answer the recorded token
counters never decrease as events are consumed, and after the stream ends
each counter equals the maximum count reported over all events that
carried token counts (zero if none did). -/
theorem streaming_token_counters (platform : ℕ → Option ℤ) (editOK : ℕ → Bool)
    (messageID : ℤ) (events : List StreamCallbackData) :
    (∀ k,
      (runAnswerStream platform editOK messageID (events.take k)).numTokensInput
        ≤ (runAnswerStream platform editOK messageID
            (events.take (k + 1))).numTokensInput ∧
      (runAnswerStream platform editOK messageID (events.take k)).numTokensOutput
        ≤ (runAnswerStream platform editOK messageID
            (events.take (k + 1))).numTokensOutput) ∧
    (runAnswerStream platform editOK messageID events).numTokensInput
      = (events.filterMap (fun ev => ev.numTokens.map NumTokens.input)).foldl
          max 0 ∧
    (runAnswerStream platform editOK messageID events).numTokensOutput
      = (events.filterMap (fun ev => ev.numTokens.map NumTokens.output)).foldl
          max 0 := by
  refine ⟨?_, (foldl_streamCallback_tokens ..).1, (foldl_streamCallback_tokens ..).2⟩
  intro k
  by_cases hk : k < events.length
  · have htake : events.take (k + 1) = events.take k ++ [events[k]] := by
      rw [List.take_succ]
      simp [List.getElem?_eq_getElem hk]
    unfold runAnswerStream
    rw [htake, List.foldl_append, List.foldl_cons, List.foldl_nil]
    exact streamCallback_tokens_mono ..
  · push_neg at hk
    have h1 : events.take k = events := List.take_of_length_le hk
    have h2 : events.take (k + 1) = events := List.take_of_length_le (by omega)
    rw [h1, h2]
    exact ⟨le_rfl, le_rfl⟩

/-- A text message from user `"eve"`, who is not in the allow-list
`["alice"]`. -/
def disallowedTextMessage : TGMessage :=
  { messageID := 5, chatID := 99, fromUsername := some "eve".toList,
    fromIsBot := false, text := some "hi".toList, caption := none,
    photo := [], video := none, videoNote := none, audio := none,
    voice := none, document := none }

def disallowedUpdate : TGUpdate :=
  { message := some disallowedTextMessage, editedMessage := none,
    inlineQuery := none }

/-- An inline query from the same disallowed user `"eve"`, and the update
carrying it. -/
def disallowedInlineQuery : TGInlineQuery :=
  { id := "q1".toList, fromID := 42, fromUsername := some "eve".toList }

def disallowedInlineUpdate : TGUpdate :=
  { message := none, editedMessage := none,
    inlineQuery := some disallowedInlineQuery }

/-- C2 counterexample: two registered handlers perform no allow-list
check.  The `/privacy` command handler still produces outbound platform
calls (a chat action and a message send) for an update from the
disallowed username `"eve"`; and the inline-query handler answers an
inline query from the same disallowed user with an outbound
`AnswerInlineQuery` call. -/
theorem privacy_and_inline_handlers_ignore_allowlist :
    isAllowed disallowedUpdate ["alice".toList] = false ∧
      privacyCommandHandler disallowedUpdate ≠ [] ∧
      isAllowed disallowedInlineUpdate ["alice".toList] = false ∧
      inlineQueryHandler (fun _ => []) disallowedInlineQuery ≠ [] := by
  refine ⟨by decide, ?_, by decide, ?_⟩
  · intro h
    simp [privacyCommandHandler, usableMessageFromUpdate, disallowedUpdate,
      disallowedTextMessage, messageUsable, TGMessage.hasText,
      sendMessageCalls] at h
  · intro h
    simp [inlineQueryHandler] at h

/-- C2 (amended): for an update whose sender is not in the allow-list,
every allow-list-checking handler — the message handler, the polling
fallback, the `/start`, `/stats`, `/help` and unknown-command handlers,
and the media-group handler when any update of the group is disallowed —
issues zero outbound platform calls.  The two exceptions: the `/privacy`
handler replies to any update with a usable message regardless of the
allow-list, and the inline-query handler performs no allow-list check at
all — even for a disallowed sender it issues exactly one
`AnswerInlineQuery` call with a non-empty result list. -/
theorem handlers_allowlist_enforcement :
    (∀ (update : TGUpdate) (allowedUsers : List (List Char))
      (statsText helpText cmd : List Char)
      (handleMessagesCalls : List TGCall),
      isAllowed update allowedUsers = false →
      startCommandHandler allowedUsers update = [] ∧
      statsCommandHandler statsText allowedUsers update = [] ∧
      helpCommandHandler helpText allowedUsers update = [] ∧
      noSuchCommandHandler allowedUsers cmd update = [] ∧
      messageHandler handleMessagesCalls allowedUsers update = [] ∧
      pollUpdateHandler allowedUsers update = []) ∧
    (∀ (updates : List TGUpdate) (allowedUsers : List (List Char))
      (handleMessagesCalls : List TGCall) (u : TGUpdate),
      u ∈ updates → isAllowed u allowedUsers = false →
      mediaGroupHandler handleMessagesCalls allowedUsers updates = []) ∧
    (∀ (update : TGUpdate) (m : TGMessage),
      usableMessageFromUpdate update = some m →
      privacyCommandHandler update
        = sendMessageCalls msgPrivacy m.chatID (some m.messageID)) ∧
    (∀ (successfulPrompts : ℤ → List SavedPrompt) (q : TGInlineQuery)
      (allowedUsers : List (List Char)),
      isAllowed (TGUpdate.mk none none (some q)) allowedUsers = false →
      ∃ results, inlineQueryHandler successfulPrompts q
        = [TGCall.answerInlineQuery q.id results] ∧ results ≠ []) := by
  refine ⟨?_, ?_, ?_, ?_⟩
  · intro update allowedUsers statsText helpText cmd handleMessagesCalls h
    unfold startCommandHandler statsCommandHandler helpCommandHandler
      noSuchCommandHandler messageHandler pollUpdateHandler
    rw [h]
    simp
  · intro updates allowedUsers handleMessagesCalls u hu h
    unfold mediaGroupHandler
    have hall : updates.all (fun x => isAllowed x allowedUsers) = false := by
      by_contra hne
      rw [Bool.not_eq_false] at hne
      have hin := List.all_eq_true.mp hne u hu
      rw [h] at hin
      exact absurd hin (by decide)
    rw [hall]
    simp
  · intro update m hm
    unfold privacyCommandHandler
    rw [hm]
  · intro successfulPrompts q allowedUsers _
    unfold inlineQueryHandler
    refine ⟨_, rfl, ?_⟩
    by_cases hl : (successfulPrompts q.fromID).length > 0
    · rw [if_pos hl]
      intro hmap
      have hlen := congrArg List.length hmap
      rw [List.length_map, List.length_nil] at hlen
      omega
    · rw [if_neg hl]
      simp

/-- Witness for `handlers_allowlist_enforcement` at the concrete
disallowed updates. -/
theorem handlers_allowlist_enforcement_witness :
    startCommandHandler ["alice".toList] disallowedUpdate = [] ∧
    statsCommandHandler "stats".toList ["alice".toList] disallowedUpdate = [] ∧
    helpCommandHandler "help".toList ["alice".toList] disallowedUpdate = [] ∧
    noSuchCommandHandler ["alice".toList] "/x".toList disallowedUpdate = [] ∧
    messageHandler [TGCall.sendChatAction 0] ["alice".toList]
      disallowedUpdate = [] ∧
    pollUpdateHandler ["alice".toList] disallowedUpdate = [] ∧
    mediaGroupHandler [TGCall.sendChatAction 0] ["alice".toList]
      [disallowedUpdate] = [] ∧
    privacyCommandHandler disallowedUpdate
      = sendMessageCalls msgPrivacy 99 (some 5) ∧
    (∃ results, inlineQueryHandler (fun _ => []) disallowedInlineQuery
      = [TGCall.answerInlineQuery "q1".toList results] ∧ results ≠ []) := by
  obtain ⟨h1, h2, h3, h4⟩ := handlers_allowlist_enforcement
  have ha := h1 disallowedUpdate ["alice".toList] "stats".toList
    "help".toList "/x".toList [TGCall.sendChatAction 0] (by decide)
  refine ⟨ha.1, ha.2.1, ha.2.2.1, ha.2.2.2.1, ha.2.2.2.2.1,
    ha.2.2.2.2.2, ?_, ?_, ?_⟩
  · exact h2 [disallowedUpdate] ["alice".toList] [TGCall.sendChatAction 0]
      disallowedUpdate (by simp) (by decide)
  · exact h3 disallowedUpdate disallowedTextMessage (by decide)
  · exact h4 (fun _ => []) disallowedInlineQuery ["alice".toList] (by decide)

/-- A message carrying neither text nor any media. -/
def emptyTGMessage : TGMessage :=
  { messageID := 1, chatID := 1, fromUsername := some "alice".toList,
    fromIsBot := false, text := none, caption := none, photo := [],
    video := none, videoNote := none, audio := none, voice := none,
    document := none }

/-- C8 counterexample: converting a message with empty text and no media
does not succeed with the default placeholder — it fails with the
not-a-supported-type error. -/
theorem convertMessage_empty_fails :
    convertMessage (fun _ => none) emptyTGMessage []
        = .error "failed to convert message: not a supported type".toList ∧
    ∀ role,
      convertMessage (fun _ => none) emptyTGMessage []
        ≠ .ok { role := role, text := defaultPromptForMedias, files := [] } := by
  refine ⟨rfl, fun role h => ?_⟩
  rw [show convertMessage (fun _ => none) emptyTGMessage []
      = Except.error "failed to convert message: not a supported type".toList
    from rfl] at h
  exact Except.noConfusion h

theorem photosFromMessage_ok (download : List Char → Option (List ℕ)) :
    ∀ ps : List (List Char), (∀ fid ∈ ps, (download fid).isSome) →
      photosFromMessage download ps = .ok (ps.filterMap download) := by
  intro ps
  induction ps with
  | nil => intro _; rfl
  | cons fid rest ih =>
    intro h
    obtain ⟨bytes, hb⟩ := Option.isSome_iff_exists.mp (h fid (by simp))
    rw [photosFromMessage, hb, ih (fun f hf => h f (by simp [hf]))]
    simp [List.filterMap_cons, hb]

/-- C8 (amended): converting a message with no text and no media fails
with the not-a-supported-type error rather than succeeding; the default
placeholder text arises only for a media-carrying message without a
caption, together with its downloaded files. -/
theorem convertMessage_placeholder_semantics :
    (∀ (download : List Char → Option (List ℕ)) (m : TGMessage)
      (others : List TGMessage),
      m.text = none → m.photo = [] → m.video = none → m.videoNote = none →
      m.audio = none → m.voice = none → m.document = none →
      convertMessage download m others
        = .error "failed to convert message: not a supported type".toList) ∧
    (∀ (download : List Char → Option (List ℕ)) (m : TGMessage),
      m.text = none → m.caption = none → m.photo ≠ [] →
      (∀ fid ∈ m.photo, (download fid).isSome) →
      m.video = none → m.videoNote = none → m.audio = none → m.voice = none →
      m.document = none →
      convertMessage download m []
        = .ok { role := if m.fromIsBot then RoleModel else RoleUser,
                text := defaultPromptForMedias,
                files := m.photo.filterMap download }) := by
  constructor
  · intro download m others h1 h2 h3 h4 h5 h6 h7
    unfold convertMessage
    simp [TGMessage.hasText, TGMessage.hasPhoto, TGMessage.hasVideo,
      TGMessage.hasVideoNote, TGMessage.hasAudio, TGMessage.hasVoice,
      TGMessage.hasDocument, h1, h2, h3, h4, h5, h6, h7]
  · intro download m h1 hcap hphoto hdl h3 h4 h5 h6 h7
    unfold convertMessage
    have hht : m.hasText = false := by simp [TGMessage.hasText, h1]
    have hhp : m.hasPhoto = true := by
      simp [TGMessage.hasPhoto, List.isEmpty_iff, hphoto]
    have hfiles : allFilesFromMessages download [m]
        = .ok (m.photo.filterMap download) := by
      rw [allFilesFromMessages]
      have : filesFromMessage download m = .ok (m.photo.filterMap download) := by
        unfold filesFromMessage
        rw [if_pos hhp]
        exact photosFromMessage_ok download m.photo hdl
      rw [this, allFilesFromMessages]
      simp
    rw [hht, hhp]
    simp only [Bool.false_eq_true, if_false, Bool.true_or, if_true, hcap, hfiles]

/-- Witness for `convertMessage_placeholder_semantics`: the empty message
(first part) and a one-photo captionless message (second part). -/
theorem convertMessage_placeholder_semantics_witness :
    convertMessage (fun _ => none) emptyTGMessage []
        = .error "failed to convert message: not a supported type".toList ∧
    convertMessage (fun _ => some [7, 8])
        { emptyTGMessage with photo := ["p1".toList] } []
        = .ok { role := RoleUser, text := defaultPromptForMedias,
                files := [[7, 8]] } := by
  constructor
  · exact convertMessage_placeholder_semantics.1 (fun _ => none) emptyTGMessage []
      rfl rfl rfl rfl rfl rfl rfl
  · have h := convertMessage_placeholder_semantics.2 (fun _ => some [7, 8])
      { emptyTGMessage with photo := ["p1".toList] }
      rfl rfl (by simp) (fun fid _ => rfl) rfl rfl rfl rfl rfl
    rw [h]
    rfl

/-- The raw error text of a failed generation call, containing the
configured Google AI API key. -/
def exampleGenError : List Char :=
  "googleapi: invalid api key secret_key_123".toList

/-- C3 evidence: when the generation call fails, the error branch of the
non-streamed `answer` records exactly once with `success=false` and zero
token counts, but stores the raw (unredacted) error text — which contains
the API key — as the result field, and the single chat-visible error
message also carries the raw error text; the `redact` function would have
removed the key. -/
theorem answer_error_path_not_redacted :
    (answerOnGenerationError 1 2 "alice".toList "hi".toList 3
        exampleGenError).2
      = [{ chatID := 1, userID := 2, username := "alice".toList,
           promptText := "hi".toList, promptTokens := 0,
           resultText := exampleGenError, resultTokens := 0,
           successful := false }] ∧
    "secret_key_123".toList <:+: exampleGenError ∧
    ¬ "secret_key_123".toList <:+:
        redact "secret_key_123".toList "tkn".toList exampleGenError ∧
    (answerOnGenerationError 1 2 "alice".toList "hi".toList 3
        exampleGenError).1
      = [TGCall.sendChatAction 1,
         TGCall.sendMessage 1 (msgGenerationFailedPrefix ++ exampleGenError)
           (some 3)] := by
  refine ⟨rfl, by decide, ?_, rfl⟩
  decide

/-- C10 (confirmed): the fragment list returned by
`convertPromptWithURLs` preserves the whole input in order — concatenating
the contents of its `Text` fragments and the URIs of its `FileURI`
fragments reproduces the input exactly — and `FileURI` fragments arise
only from matches containing one of the known video-hosting hosts
(`www.youtube.com`, `youtu.be`), always with mime type `video/mp4`. -/
theorem convertPromptWithURLs_preserves_input (urls : List (List Char))
    (prompt : List Char) :
    promptFragmentsConcat (convertPromptWithURLs urls prompt) = prompt ∧
    ∀ u m, Prompt.fileURI u m ∈ convertPromptWithURLs urls prompt →
      u ∈ urls ∧ isURLFromYoutube u = true ∧ m = "video/mp4".toList := by
  obtain ⟨h1, h2⟩ := convertPromptWithURLsLoop_spec urls [] prompt
  refine ⟨by rw [convertPromptWithURLs, h1]; rfl, fun u m hmem => ?_⟩
  rcases h2 u m hmem with h | h
  · simp [promptFragmentsConcat] at h
  · exact h

/-- Witness for `convertPromptWithURLs_preserves_input` on a prompt
containing one YouTube URL. -/
theorem convertPromptWithURLs_preserves_input_witness :
    promptFragmentsConcat (convertPromptWithURLs ["https://youtu.be/abc".toList]
        "watch https://youtu.be/abc now".toList)
      = "watch https://youtu.be/abc now".toList ∧
    ("https://youtu.be/abc".toList ∈ ["https://youtu.be/abc".toList] ∧
      isURLFromYoutube "https://youtu.be/abc".toList = true ∧
      "video/mp4".toList = "video/mp4".toList) :=
  ⟨(convertPromptWithURLs_preserves_input ["https://youtu.be/abc".toList]
      "watch https://youtu.be/abc now".toList).1,
   (convertPromptWithURLs_preserves_input ["https://youtu.be/abc".toList]
      "watch https://youtu.be/abc now".toList).2
     "https://youtu.be/abc".toList "video/mp4".toList (by decide)⟩

/-- A network oracle with exactly one reachable `text/plain` URL. -/
def exampleFetchNet : List Char → FetchOutcome := fun u =>
  if u = "http://a.bc/x".toList then
    .response 200 "text/plain".toList "hello".toList
  else .unreachable

/-- C7 counterexample: for a prompt containing a reachable `text/plain`
URL, the converted prompt does contain the fetched body, but it still
contains the raw URL substring (inside the `<link url="…">` wrapper that
the replacement inserts at the match position), so the claim that the
result no longer contains the raw URL fails. -/
theorem convertPrompt_url_still_present :
    "hello".toList <:+:
      (convertPromptWithURLsFetching id exampleFetchNet
        ["http://a.bc/x".toList] "see http://a.bc/x now".toList).1 ∧
    "http://a.bc/x".toList <:+:
      (convertPromptWithURLsFetching id exampleFetchNet
        ["http://a.bc/x".toList] "see http://a.bc/x now".toList).1 := by
  constructor
  · decide
  · decide

/-- C7 (amended): for a prompt containing an HTTP URL whose fetch returns
status 200 with content type `text/plain` and body `body`, the match is
replaced in place by the fetched body — trailing spaces trimmed and
consecutive empty lines collapsed — wrapped in a `<link>` element that
repeats the URL (so the processed body is contained in the result and the
URL still occurs inside the wrapper), with no file attached; for
unreachable URLs the original text is returned unchanged with no files,
and no error propagates (the function returns no error at all). -/
theorem convertPromptWithURLs_fetch_semantics :
    (∀ (htmlText : List Char → List Char) (net : List Char → FetchOutcome)
      (prompt url body a b : List Char),
      url ≠ [] →
      net url = .response 200 "text/plain".toList body →
      firstMatch prompt url = some (a, b) →
      (convertPromptWithURLsFetching htmlText net [url] prompt).1
        = a ++ (urlToTextFormat url "text/plain".toList
            (removeConsecutiveEmptyLines body) ++ ['\n']) ++ b ∧
      removeConsecutiveEmptyLines body <:+:
        (convertPromptWithURLsFetching htmlText net [url] prompt).1 ∧
      url <:+: (convertPromptWithURLsFetching htmlText net [url] prompt).1 ∧
      (convertPromptWithURLsFetching htmlText net [url] prompt).2 = []) ∧
    (∀ (htmlText : List Char → List Char) (net : List Char → FetchOutcome)
      (prompt : List Char) (urls : List (List Char)),
      (∀ u ∈ urls, net u = .unreachable) →
      convertPromptWithURLsFetching htmlText net urls prompt = (prompt, [])) := by
  constructor
  · intro htmlText net prompt url body a b hne hnet hfm
    have hfetch : fetchURLContent htmlText net url
        = (urlToTextFormat url "text/plain".toList
            (removeConsecutiveEmptyLines body), "text/plain".toList, true) := by
      unfold fetchURLContent
      rw [hnet]
      rfl
    have hstep : convertPromptWithURLsFetching htmlText net [url] prompt
        = (a ++ (urlToTextFormat url "text/plain".toList
              (removeConsecutiveEmptyLines body) ++ ['\n']) ++ b, []) := by
      unfold convertPromptWithURLsFetching
      rw [List.foldl_cons, List.foldl_nil]
      unfold convertPromptURLStep
      rw [hfetch]
      show (if supportedHTTPContentType "text/plain".toList = true then _
        else _) = _
      rw [if_pos (by decide : supportedHTTPContentType "text/plain".toList = true)]
      show (goReplaceOnce prompt url _, ([] : List (List Char))) = _
      unfold goReplaceOnce
      rw [if_neg hne, hfm]
    refine ⟨by rw [hstep], ?_, ?_, by rw [hstep]⟩
    · rw [hstep]
      refine ⟨a ++ "<link url=\"".toList ++ url ++ "\" content-type=\"".toList
          ++ "text/plain".toList ++ "\">\n".toList,
        "\n</link>".toList ++ ['\n'] ++ b, ?_⟩
      simp [urlToTextFormat, List.append_assoc]
    · rw [hstep]
      refine ⟨a ++ "<link url=\"".toList,
        "\" content-type=\"".toList ++ "text/plain".toList ++ "\">\n".toList
          ++ removeConsecutiveEmptyLines body ++ "\n</link>".toList
          ++ ['\n'] ++ b, ?_⟩
      simp [urlToTextFormat, List.append_assoc]
  · intro htmlText net prompt urls h
    have hgen : ∀ (us : List (List Char)) (pf : List Char × List (List Char)),
        (∀ u ∈ us, net u = .unreachable) →
        us.foldl (convertPromptURLStep htmlText net) pf = pf := by
      intro us
      induction us with
      | nil => intro pf _; rfl
      | cons u rest ih =>
        intro pf hu
        rw [List.foldl_cons]
        have hstep : convertPromptURLStep htmlText net pf u = pf := by
          unfold convertPromptURLStep fetchURLContent
          rw [hu u (by simp)]
          rfl
        rw [hstep]
        exact ih pf (fun x hx => hu x (by simp [hx]))
    exact hgen urls (prompt, []) h

/-- Witness for `convertPromptWithURLs_fetch_semantics` at the concrete
reachable URL. -/
theorem convertPromptWithURLs_fetch_semantics_witness :
    (convertPromptWithURLsFetching id exampleFetchNet
        ["http://a.bc/x".toList] "see http://a.bc/x now".toList).1
      = "see ".toList ++ (urlToTextFormat "http://a.bc/x".toList
          "text/plain".toList
          (removeConsecutiveEmptyLines "hello".toList) ++ ['\n'])
        ++ " now".toList ∧
    (convertPromptWithURLsFetching id exampleFetchNet
        ["http://a.bc/x".toList] "see http://a.bc/x now".toList).2 = [] := by
  have h := convertPromptWithURLs_fetch_semantics.1 id exampleFetchNet
    "see http://a.bc/x now".toList "http://a.bc/x".toList "hello".toList
    "see ".toList " now".toList (by decide) (by decide) (by decide)
  exact ⟨h.1, h.2.2.2⟩

end TGBot
